import Mathlib

/-!
# Chat component (`src/components/Chat.jsx`)

A shallow embedding of the chat component: the segment renderer
(`renderMessageContent`), the search filter (`filteredMessages`) and the event
handlers that update the message store (`sendMessage`, its response and failure
continuations, and the interval callback of `typeWriterEffect`).

A JavaScript string is modelled as the list of its UTF-16 code units: `length`,
`slice`, `trim`, `split`, `includes` and a regular expression without the `u`
flag all work on code units.
-/

namespace Chat

/-- A UTF-16 code unit, as its value (a number below `0x10000`). -/
abbrev CodeUnit := Nat

/-- A string, as the list of its code units. -/
abbrev Str := List CodeUnit

/-- The code units of one character: its value below `0x10000`, a surrogate
pair from there on. -/
def encodeChar (c : Char) : Str :=
  if c.toNat < 65536 then [c.toNat]
  else [55296 + (c.toNat - 65536) / 1024, 56320 + (c.toNat - 65536) % 1024]

/-- The code units of a list of characters. -/
def encode : List Char → Str
  | [] => []
  | c :: cs => encodeChar c ++ encode cs

/-- The code units of a text, used to write strings down. -/
def utf16 (s : String) : Str := encode s.toList

/-! ## String built-ins used by the component -/

/-- The characters `String.prototype.trim` strips: the ECMAScript `WhiteSpace`
and `LineTerminator` code points. -/
def isWhiteSpace (c : CodeUnit) : Bool :=
  c == 9 || c == 10 || c == 11 || c == 12 || c == 13 ||
  c == 32 || c == 160 || c == 5760 ||
  (decide (8192 ≤ c) && decide (c ≤ 8202)) ||
  c == 8232 || c == 8233 || c == 8239 || c == 8287 ||
  c == 12288 || c == 65279

/-- The function `s.trim()`: white space is dropped at both ends. -/
def trim (s : Str) : Str :=
  ((s.dropWhile isWhiteSpace).reverse.dropWhile isWhiteSpace).reverse

/-- The function `s.slice(a, b)` for indices `0 ≤ a` and `0 ≤ b`. -/
def slice (s : Str) (a b : Nat) : Str := (s.take b).drop a

/-- The function `s.includes(t)`: does `t` occur in `s` at some position. -/
def includes : Str → Str → Bool
  | [], t => t.isEmpty
  | c :: cs, t => t.isPrefixOf (c :: cs) || includes cs t

/-- Put `c` in front of the first piece of a split. -/
def consHead (c : CodeUnit) : List Str → List Str
  | [] => [[c]]
  | p :: ps => (c :: p) :: ps

/-- Worker of `split`: `skip` counts the characters of a separator that was
just matched and is still to be stepped over. -/
def splitGo (sep : Str) : Str → Nat → List Str
  | [], _ => [[]]
  | _ :: cs, skip + 1 => splitGo sep cs skip
  | c :: cs, 0 =>
    if sep.isPrefixOf (c :: cs) then [] :: splitGo sep cs (sep.length - 1)
    else consHead c (splitGo sep cs 0)

/-- The function `s.split(sep)` for a non-empty separator string: the pieces
between the occurrences of `sep`, found from left to right. -/
def split (s sep : Str) : List Str := splitGo sep s 0

/-- The backtick, U+0060. -/
def backtick : CodeUnit := 96

/-- The opening and closing marker of a code block: three backticks. -/
def fence : Str := [backtick, backtick, backtick]

/-- The line feed character. -/
def LF : CodeUnit := 10

/-- The carriage return character. -/
def CR : CodeUnit := 13

/-- The call `.replace(/\r\n/g, "\n")`. -/
def replaceCRLF : Str → Str
  | [] => []
  | [c] => [c]
  | c :: d :: rest =>
    if c = CR ∧ d = LF then LF :: replaceCRLF rest
    else c :: replaceCRLF (d :: rest)

/-- Worker of `normalizeParagraphs`; `inRun` says that the scan is inside a
match of `\n\n+`, whose replacement was already written. -/
def normalizeGo : Bool → Str → Str
  | _, [] => []
  | true, c :: cs => if c = LF then normalizeGo true cs else c :: normalizeGo false cs
  | false, c :: cs =>
    if c = LF ∧ cs.head? = some LF then LF :: LF :: normalizeGo true cs
    else c :: normalizeGo false cs

/-- The call `.replace(/\n\n+/g, "\n\n")`: every run of two or more line feeds
becomes exactly two. -/
def normalizeParagraphs (s : Str) : Str := normalizeGo false s

/-! ## The segment renderer -/

/-- The kind of a segment. -/
inductive PartType
  | text
  | code
  deriving DecidableEq

/-- A segment `{ type, content }` of a message. -/
structure Part where
  type : PartType
  content : Str
  deriving DecidableEq

/-- The tail `([\s\S]*?)` followed by the closing fence of `codeRegex`, tried
at the head of `u`: the shortest captured group after which a fence starts. -/
def closeFence : Str → Option Str
  | [] => none
  | c :: cs =>
    if fence.isPrefixOf (c :: cs) then some []
    else (closeFence cs).map (c :: ·)

/-- One attempt of `codeRegex` anchored at the head of `u`; the result is the
captured group. -/
def matchHere (u : Str) : Option Str :=
  if fence.isPrefixOf u then closeFence (u.drop 3) else none

/-- The start positions `k, k + 1, ...` of `u` are tried in turn; the result is
the index of the first match and its captured group. -/
def scanFrom : Str → Nat → Option (Nat × Str)
  | [], _ => none
  | c :: cs, k =>
    match matchHere (c :: cs) with
    | some cap => some (k, cap)
    | none => scanFrom cs (k + 1)

/-- The result of a successful `codeRegex.exec`: `match.index`, `match[1]` and
the `lastIndex` the regular expression is left with. -/
structure Match where
  index : Nat
  group1 : Str
  lastIndex : Nat
  deriving DecidableEq

/-- The call `codeRegex.exec(content)` of the global regular expression
`/```([\s\S]*?)```/g` whose `lastIndex` is `lastIndex`. -/
def exec (content : Str) (lastIndex : Nat) : Option Match :=
  match scanFrom (content.drop lastIndex) lastIndex with
  | some (i, cap) => some ⟨i, cap, i + 3 + cap.length + 3⟩
  | none => none

/-- The `while` loop of `renderMessageContent`; `fuel` bounds the number of
iterations, and the result is `parts` together with `lastIndex`. -/
def partsLoop (content : Str) : Nat → Nat → List Part → Option (List Part × Nat)
  | 0, _, _ => none
  | fuel + 1, lastIndex, parts =>
    match exec content lastIndex with
    | none => some (parts, lastIndex)
    | some m =>
      partsLoop content fuel m.lastIndex
        ((if m.index > lastIndex
          then parts ++ [⟨PartType.text, slice content lastIndex m.index⟩]
          else parts) ++ [⟨PartType.code, m.group1⟩])

/-- The segment list `parts` that `renderMessageContent` builds from
`msg.content` before it renders the segments. -/
def renderMessageContentParts (content : Str) : Option (List Part) :=
  match partsLoop content (content.length + 1) 0 [] with
  | none => none
  | some (parts, lastIndex) =>
    some (if lastIndex < content.length
      then parts ++ [⟨PartType.text, content.drop lastIndex⟩]
      else parts)

/-- The paragraphs of a text segment, each as its list of lines: the chain
`trim`, `replace`, `replace`, `split("\n\n")` and, per paragraph, `split("\n")`. -/
def textParagraphs (content : Str) : List (List Str) :=
  (split (normalizeParagraphs (replaceCRLF (trim content))) [LF, LF]).map
    (fun paragraph => split paragraph [LF])

/-- What a segment is rendered as. -/
inductive Node
  | paragraphs (ps : List (List Str))
  | codeBlock (code : Str)
  deriving DecidableEq

/-- The body of `parts.map` in `renderMessageContent`. -/
def renderPart (part : Part) : Node :=
  match part.type with
  | PartType.text => Node.paragraphs (textParagraphs part.content)
  | PartType.code => Node.codeBlock part.content

/-- The function `renderMessageContent` applied to a message with this content. -/
def renderMessageContent (content : Str) : Option (List Node) :=
  (renderMessageContentParts content).map (fun parts => parts.map renderPart)

/-! ## The message store and the handlers that update it -/

/-- The `role` of a message. -/
inductive Role
  | user
  | assistant
  deriving DecidableEq

/-- A message record `{ role, content, time, isTyping }`; a record written
without `isTyping` has `isTyping = false` (the field is only tested for truth). -/
structure Message where
  role : Role
  content : Str
  time : Str
  isTyping : Bool
  deriving DecidableEq

/-- A `fetch` in flight. The body carries `conversationId` and `userMessage`;
the continuation of `sendMessage` reads the same `conversationId`. -/
structure Request where
  conversationId : Option Str
  userMessage : Str
  deriving DecidableEq

/-- The JSON body `data` of a response; an absent field is `none`. -/
structure Response where
  conversationId : Option Str
  assistantMessage : Option Str
  deriving DecidableEq

/-- A running interval of `typeWriterEffect`: its `fullText` and its counter `i`. -/
structure Timer where
  fullText : Str
  i : Nat
  deriving DecidableEq

/-- The state of the component: the four `useState` cells, the requests in
flight and the running intervals. -/
structure State where
  messages : List Message
  inputValue : Str
  conversationId : Option Str
  searchTerm : Str
  requests : List Request
  timers : List Timer
  deriving DecidableEq

/-- The state the component is mounted with. -/
def State.init : State := ⟨[], [], none, [], [], []⟩

/-- Truth of a value that is `null`, `undefined` or a string. -/
def truthy : Option Str → Bool
  | some (_ :: _) => true
  | _ => false

/-- The call `arr.findIndex(p)`; `none` stands for `-1`. -/
def findIndex {α : Type} (p : α → Bool) : List α → Option Nat
  | [] => none
  | a :: as => if p a then some 0 else (findIndex p as).map (· + 1)

/-- The updater that removes the typing placeholder: `findIndex` for
`m.isTyping`, then `splice(typingIndex, 1)` when the index is not `-1`. -/
def removeTyping (prev : List Message) : List Message :=
  match findIndex (fun m => m.isTyping) prev with
  | some typingIndex => prev.eraseIdx typingIndex
  | none => prev

/-- The updater of the typewriter callback: `newArr[newArr.length - 1].content`
is assigned `shown`. On an empty array the assignment throws and the store is
left as it is. -/
def setLastContent (shown : Str) : List Message → List Message
  | [] => []
  | [m] => [{ m with content := shown }]
  | m :: ms => m :: setLastContent shown ms

/-- The function `sendMessage` up to its `await`: the guard on the trimmed
input, the two appends and the `fetch`; `timestamp` is what
`new Date().toLocaleString()` gives. -/
def sendMessage (s : State) (timestamp : Str) : State :=
  if (trim s.inputValue).isEmpty then s
  else
    { s with
      inputValue := []
      messages :=
        (s.messages ++ [⟨Role.user, trim s.inputValue, timestamp, false⟩]) ++
          [⟨Role.assistant, [], [], true⟩]
      requests := s.requests ++ [⟨s.conversationId, trim s.inputValue⟩] }

/-- The continuation of `sendMessage` after both `await`s succeeded, for the
request at position `k`: the conversation identifier is adopted, the
placeholder removed and, for a non-empty `assistantMessage`, an empty assistant
message appended and the typewriter started. -/
def onResponse (s : State) (k : Nat) (data : Response) (assistantTime : Str) : State :=
  match s.requests.get? k with
  | none => s
  | some req =>
    let conversationId :=
      if truthy data.conversationId && !truthy req.conversationId
      then data.conversationId else s.conversationId
    match data.assistantMessage with
    | some (c :: cs) =>
      { s with
        conversationId := conversationId
        requests := s.requests.eraseIdx k
        messages := removeTyping s.messages ++ [⟨Role.assistant, [], assistantTime, false⟩]
        timers := s.timers ++ [⟨c :: cs, 0⟩] }
    | _ =>
      { s with
        conversationId := conversationId
        requests := s.requests.eraseIdx k
        messages := removeTyping s.messages }

/-- The `catch` branch of `sendMessage` for the request at position `k`: the
placeholder is removed and the error logged. -/
def onFailure (s : State) (k : Nat) : State :=
  match s.requests.get? k with
  | none => s
  | some _ =>
    { s with
      requests := s.requests.eraseIdx k
      messages := removeTyping s.messages }

/-- One firing of the interval of `typeWriterEffect` at position `k`: `i++`,
the callback with `fullText.slice(0, i)`, and `clearInterval` once
`i >= fullText.length`. -/
def tick (s : State) (k : Nat) : State :=
  match s.timers.get? k with
  | none => s
  | some tm =>
    { s with
      messages := setLastContent (slice tm.fullText 0 (tm.i + 1)) s.messages
      timers :=
        if tm.i + 1 ≥ tm.fullText.length then s.timers.eraseIdx k
        else s.timers.set k ⟨tm.fullText, tm.i + 1⟩ }

/-- The events of the component. -/
inductive Event
  | input (value : Str)
  | search (value : Str)
  | send (timestamp : Str)
  | response (k : Nat) (data : Response) (assistantTime : Str)
  | failure (k : Nat)
  | tick (k : Nat)
  deriving DecidableEq

/-- The effect of one event on the state. -/
def step (s : State) : Event → State
  | Event.input value => { s with inputValue := value }
  | Event.search value => { s with searchTerm := value }
  | Event.send timestamp => sendMessage s timestamp
  | Event.response k data assistantTime => onResponse s k data assistantTime
  | Event.failure k => onFailure s k
  | Event.tick k => tick s k

/-- The state after a sequence of events. -/
def run (s : State) (es : List Event) : State := es.foldl step s

/-- The constant `filteredMessages` of a render pass. The built-in
`String.prototype.toLowerCase`, whose case tables are no part of the
repository, is the parameter `toLowerCase`. -/
def filteredMessages (toLowerCase : Str → Str) (messages : List Message)
    (searchTerm : Str) : List Message :=
  messages.filter (fun msg => includes (toLowerCase msg.content) (toLowerCase searchTerm))

/-- What `toLowerCase` does to a text of ASCII characters: the letters `A` to
`Z` become `a` to `z`. -/
def lowerASCII (s : Str) : Str :=
  s.map (fun c => if 65 ≤ c ∧ c ≤ 90 then c + 32 else c)

/-- Worker of `lowerAlphaSigma`; `afterLetter` says that a letter stands in
front of the text. -/
def lowerAlphaSigmaGo : Bool → Str → Str
  | _, [] => []
  | afterLetter, c :: cs =>
    if c = 913 then 945 :: lowerAlphaSigmaGo true cs
    else if c = 931 then
      (if afterLetter && cs.isEmpty then 962 else 963) :: lowerAlphaSigmaGo true cs
    else c :: lowerAlphaSigmaGo false cs

/-- What `toLowerCase` does to a text of the Greek capital letters alpha
(U+0391) and sigma (U+03A3): alpha becomes U+03B1; sigma becomes the final
sigma U+03C2 when a letter stands in front of it and none behind it, and
U+03C3 otherwise. -/
def lowerAlphaSigma (s : Str) : Str := lowerAlphaSigmaGo false s

/-! ## Notions in which the properties are stated -/

/-- The number of typing placeholders of a store. -/
def typingCount (l : List Message) : Nat := l.countP (fun m => m.isTyping)

/-- The state after a send, the successful response `data` to its request and
`n` firings of the interval that this response started. -/
def sendAndReveal (s : State) (timestamp : Str) (data : Response) (assistantTime : Str)
    (n : Nat) : State :=
  run (onResponse (sendMessage s timestamp) s.requests.length data assistantTime)
    (List.replicate n (Event.tick s.timers.length))

/-- Single flight: in the run `es` from `s`, every send with a non-blank input
happens while the store holds no typing placeholder. -/
def singleFlight : State → List Event → Bool
  | _, [] => true
  | s, e :: es =>
    (match e with
      | Event.send _ => (trim s.inputValue).isEmpty || typingCount s.messages == 0
      | _ => true) && singleFlight (step s e) es

/-- One reveal at a time: in the run `es` from `s`, every send with a non-blank
input happens while no request is in flight and no interval is running. -/
def oneAtATime : State → List Event → Bool
  | _, [] => true
  | s, e :: es =>
    (match e with
      | Event.send _ =>
        (trim s.inputValue).isEmpty || (s.requests.isEmpty && s.timers.isEmpty)
      | _ => true) && oneAtATime (step s e) es

/-- What holds of a state while at most one request or reveal is under way:
either no interval runs and at most one request is in flight, or no request is
in flight and the only interval reveals into the last message, an assistant
message that shows the first `i` characters of the reply. -/
def RevealInv (s : State) : Prop :=
  (s.timers = [] ∧ s.requests.length ≤ 1) ∨
  (s.requests = [] ∧ ∃ tm M a, s.timers = [tm] ∧ s.messages = M ++ [a] ∧
    a.role = Role.assistant ∧ a.isTyping = false ∧
    a.content = tm.fullText.take tm.i ∧ tm.i < tm.fullText.length)

/-- Two records are the same message when they agree on every field but the
mutable `content`. -/
def sameRecord (a b : Message) : Prop :=
  a.role = b.role ∧ a.time = b.time ∧ a.isTyping = b.isTyping

/-- The run in which a second message is sent while the first is still
awaiting its response. -/
def twoSends : List Event :=
  [Event.input (utf16 "a"), Event.send (utf16 "t1"),
   Event.input (utf16 "b"), Event.send (utf16 "t2")]

/-- The run in which a message is sent, and its request fails, while the
reply to an earlier message is still being revealed. -/
def sendDuringReveal : List Event :=
  [Event.input (utf16 "a"), Event.send (utf16 "t1"),
   Event.response 0 ⟨none, some (utf16 "xy")⟩ (utf16 "t2"),
   Event.input (utf16 "b"), Event.send (utf16 "t3"), Event.failure 0]

/-- The source text of a segment: a text segment is its content, a code segment
is its content between two fences. -/
def partSource (p : Part) : Str :=
  match p.type with
  | PartType.text => p.content
  | PartType.code => fence ++ p.content ++ fence

/-- The source texts of the segments, concatenated in order. -/
def partsSource : List Part → Str
  | [] => []
  | p :: ps => partSource p ++ partsSource ps

/-- The text `t0`, then for each pair `(c, t)` a fence, `c`, a fence and `t`:
with `N` pairs, the text `t0 F c1 F t1 ... F cN F tN`. -/
def fenced (t0 : Str) : List (Str × Str) → Str
  | [] => t0
  | (c, t) :: rest => t0 ++ fence ++ c ++ fence ++ fenced t rest

/-- The text segment for `t`, none when `t` is empty. -/
def textPart (t : Str) : List Part :=
  if t = [] then [] else [⟨PartType.text, t⟩]

/-- The segments the loop is to find in `fenced t0 pairs`: the non-empty texts
before the fences and the code between them. -/
def loopParts (t0 : Str) : List (Str × Str) → List Part
  | [] => []
  | (c, t) :: rest => textPart t0 ++ [⟨PartType.code, c⟩] ++ loopParts t rest

/-- The text after the last fence of `fenced t0 pairs`. -/
def lastText (t0 : Str) : List (Str × Str) → Str
  | [] => t0
  | (_, t) :: rest => lastText t rest

/-- The segments of `fenced t0 pairs` read pair by pair: each `c` a code
segment, each non-empty `t` a text segment. -/
def expectedParts (t0 : Str) (pairs : List (Str × Str)) : List Part :=
  loopParts t0 pairs ++ textPart (lastText t0 pairs)

/-- The string `x` holds no fence and does not end with a backtick. -/
def clean (x : Str) : Bool :=
  !includes x fence && x.getLast? != some backtick

/-- No piece of `fenced t0 pairs` holds a fence, and no piece that is followed
by a fence ends with a backtick. -/
def cleanPairs (t0 : Str) : List (Str × Str) → Bool
  | [] => !includes t0 fence
  | (c, t) :: rest => clean t0 && clean c && cleanPairs t rest

/-- No piece of `fenced t0 pairs` holds a fence. -/
def fenceFree (t0 : Str) (pairs : List (Str × Str)) : Bool :=
  !includes t0 fence && pairs.all (fun p => !includes p.1 fence && !includes p.2 fence)

/-- The number of segments of type `ty`. -/
def countType (ty : PartType) (parts : List Part) : Nat :=
  parts.countP (fun p => p.type == ty)

/-- The number of maximal runs of two or more consecutive line feeds in `s`:
the positions at which such a run begins are counted; `prev` says that the
character in front of `s` is a line feed. -/
def blankRuns : Bool → Str → Nat
  | _, [] => 0
  | prev, c :: cs =>
    (if !prev && c == LF && cs.head? == some LF then 1 else 0) + blankRuns (c == LF) cs

/-- The paragraphs of a text segment before they are split into lines. -/
def paragraphsOf (content : Str) : List Str :=
  split (normalizeParagraphs (replaceCRLF (trim content))) [LF, LF]

/-! ## Facts about the built-ins -/

theorem trim_eq_nil_of_forall (s : Str) (h : ∀ c ∈ s, isWhiteSpace c = true) : trim s = [] := by
  have h1 : s.dropWhile isWhiteSpace = [] := List.dropWhile_eq_nil_iff.mpr h
  simp [trim, h1]

theorem slice_zero (s : Str) (n : Nat) : slice s 0 n = s.take n := by
  simp [slice]

/-! ## Facts about the store updaters -/

theorem removeTyping_eq_eraseP (l : List Message) :
    removeTyping l = l.eraseP (fun m => m.isTyping) := by
  induction l with
  | nil => rfl
  | cons a as ih =>
    unfold removeTyping at ih ⊢
    by_cases ha : a.isTyping = true
    · simp [findIndex, ha, List.eraseP_cons]
    · simp only [findIndex, ha, Bool.false_eq_true, if_false, List.eraseP_cons, cond_false]
      cases hf : findIndex (fun m => m.isTyping) as with
      | none => rw [hf] at ih; simp [← ih]
      | some j => rw [hf] at ih; simp [← ih]

theorem removeTyping_of_none (l : List Message) (h : ∀ m ∈ l, m.isTyping = false) :
    removeTyping l = l := by
  rw [removeTyping_eq_eraseP]
  apply List.eraseP_of_forall_not
  intro m hm
  simp [h m hm]

theorem removeTyping_append_placeholder (l r : List Message) (p : Message)
    (h : ∀ m ∈ l, m.isTyping = false) (hp : p.isTyping = true) :
    removeTyping (l ++ p :: r) = l ++ r := by
  rw [removeTyping_eq_eraseP]
  induction l with
  | nil => simp [List.eraseP_cons, hp]
  | cons a as ih =>
    have ha : a.isTyping = false := h a (List.mem_cons_self _ _)
    have ih2 := ih (fun m hm => h m (List.mem_cons_of_mem _ hm))
    simp [List.eraseP_cons, ha, ih2]

/-- The updater `removeTyping` takes out at most one message, and only a
typing placeholder. -/
theorem removeTyping_split (l : List Message) :
    ∃ l1 removed l2, l = l1 ++ removed ++ l2 ∧ removed.length ≤ 1 ∧
      (∀ m ∈ removed, m.isTyping = true) ∧ removeTyping l = l1 ++ l2 := by
  rw [removeTyping_eq_eraseP]
  induction l with
  | nil => exact ⟨[], [], [], by simp⟩
  | cons a as ih =>
    by_cases ha : a.isTyping = true
    · exact ⟨[], [a], as, by simp, by simp, by simpa using ha, by simp [List.eraseP_cons, ha]⟩
    · obtain ⟨l1, removed, l2, h1, h2, h3, h4⟩ := ih
      refine ⟨a :: l1, removed, l2, by simp [h1], h2, h3, ?_⟩
      simp [List.eraseP_cons, ha, h4]

theorem typingCount_removeTyping_le (l : List Message) :
    typingCount (removeTyping l) ≤ typingCount l := by
  rw [removeTyping_eq_eraseP]
  exact List.Sublist.countP_le _ (List.eraseP_sublist l)

theorem setLastContent_append_singleton (shown : Str) (l : List Message) (a : Message) :
    setLastContent shown (l ++ [a]) = l ++ [{ a with content := shown }] := by
  induction l with
  | nil => rfl
  | cons b bs ih =>
    cases bs with
    | nil => rfl
    | cons c cs =>
      show b :: setLastContent shown ((c :: cs) ++ [a]) = _
      rw [ih]; rfl

theorem setLastContent_length (shown : Str) (l : List Message) :
    (setLastContent shown l).length = l.length := by
  rcases List.eq_nil_or_concat l with h | ⟨l1, a, h⟩
  · subst h; rfl
  · subst h; simp [setLastContent_append_singleton]

theorem typingCount_setLastContent (shown : Str) (l : List Message) :
    typingCount (setLastContent shown l) = typingCount l := by
  rcases List.eq_nil_or_concat l with h | ⟨l1, a, h⟩
  · subst h; rfl
  · subst h
    simp [setLastContent_append_singleton, typingCount, List.countP_append, List.countP_cons]

/-! ## Sending a message -/

/-- C9. A send whose input is empty or consists only of white space changes
nothing: the store, the conversation identifier and the list of requests in
flight (indeed the whole state) are the same afterwards. -/
theorem sendMessage_blank (s : State) (timestamp : Str)
    (h : ∀ c ∈ s.inputValue, isWhiteSpace c = true) :
    sendMessage s timestamp = s ∧
      (sendMessage s timestamp).messages = s.messages ∧
      (sendMessage s timestamp).conversationId = s.conversationId ∧
      (sendMessage s timestamp).requests = s.requests := by
  have h0 : sendMessage s timestamp = s := by
    simp [sendMessage, trim_eq_nil_of_forall s.inputValue h]
  simp [h0]

theorem sendMessage_blank_witness :
    let s : State := ⟨[⟨Role.user, (utf16 "hi"), (utf16 "t0"), false⟩], (utf16 " \n\t "),
      some (utf16 "c1"), [], [], []⟩
    sendMessage s (utf16 "t1") = s ∧
      (sendMessage s (utf16 "t1")).messages = s.messages ∧
      (sendMessage s (utf16 "t1")).conversationId = s.conversationId ∧
      (sendMessage s (utf16 "t1")).requests = s.requests :=
  sendMessage_blank _ _ (by decide)

theorem sendMessage_messages (s : State) (timestamp : Str) (hu : trim s.inputValue ≠ []) :
    sendMessage s timestamp =
      { s with
        inputValue := []
        messages := s.messages ++
          [⟨Role.user, trim s.inputValue, timestamp, false⟩, ⟨Role.assistant, [], [], true⟩]
        requests := s.requests ++ [⟨s.conversationId, trim s.inputValue⟩] } := by
  simp [sendMessage, hu]

/-- C4. From a store `m` without typing placeholder and an input with a
non-empty trim, a send followed by the failure of its request leaves the store
as `m` followed by the user message alone. -/
theorem send_failure (s : State) (timestamp : Str)
    (hm : ∀ m ∈ s.messages, m.isTyping = false) (hu : trim s.inputValue ≠ []) :
    (onFailure (sendMessage s timestamp) s.requests.length).messages =
        s.messages ++ [⟨Role.user, trim s.inputValue, timestamp, false⟩] ∧
      (∀ m ∈ (onFailure (sendMessage s timestamp) s.requests.length).messages,
        m.isTyping = false) := by
  have h1 : (onFailure (sendMessage s timestamp) s.requests.length).messages =
      s.messages ++ [⟨Role.user, trim s.inputValue, timestamp, false⟩] := by
    rw [sendMessage_messages s timestamp hu]
    simp only [onFailure, List.get?_eq_getElem?, List.getElem?_concat_length]
    have := removeTyping_append_placeholder
      (s.messages ++ [⟨Role.user, trim s.inputValue, timestamp, false⟩]) []
      ⟨Role.assistant, [], [], true⟩
      (by
        intro m hmem
        rcases List.mem_append.mp hmem with h | h
        · exact hm m h
        · simp at h; subst h; rfl) rfl
    simpa using this
  refine ⟨h1, ?_⟩
  intro m hmem
  rw [h1] at hmem
  rcases List.mem_append.mp hmem with h | h
  · exact hm m h
  · simp at h; subst h; rfl

theorem send_failure_witness :
    let s : State := ⟨[⟨Role.user, (utf16 "hi"), (utf16 "t0"), false⟩], (utf16 " ok "),
      none, [], [], []⟩
    (onFailure (sendMessage s (utf16 "t1")) s.requests.length).messages =
        s.messages ++ [⟨Role.user, trim s.inputValue, (utf16 "t1"), false⟩] ∧
      (∀ m ∈ (onFailure (sendMessage s (utf16 "t1")) s.requests.length).messages,
        m.isTyping = false) :=
  send_failure _ _ (by decide) (by decide)

/-! ## The typewriter -/

theorem run_append (s : State) (es fs : List Event) :
    run s (es ++ fs) = run (run s es) fs := by
  simp [run, List.foldl_append]

theorem eraseIdx_concat_length {α : Type} (T : List α) (x : α) :
    (T ++ [x]).eraseIdx T.length = T := by
  induction T with
  | nil => rfl
  | cons b bs ih => simp [List.eraseIdx_cons_succ, ih]

/-- A firing of the last interval that does not yet reach the end of the text. -/
theorem tick_last_running (s : State) (T : List Timer) (M : List Message) (a : Message)
    (r : Str) (i : Nat) (ht : s.timers = T ++ [⟨r, i⟩]) (hm : s.messages = M ++ [a])
    (hi : i + 1 < r.length) :
    tick s T.length =
      { s with
        messages := M ++ [{ a with content := r.take (i + 1) }]
        timers := T ++ [⟨r, i + 1⟩] } := by
  have hnot : ¬ (r.length ≤ i + 1) := by omega
  simp [tick, ht, hm, setLastContent_append_singleton, slice_zero, hnot]

/-- The firing of the last interval that reaches the end of the text. -/
theorem tick_last_final (s : State) (T : List Timer) (M : List Message) (a : Message)
    (r : Str) (i : Nat) (ht : s.timers = T ++ [⟨r, i⟩]) (hm : s.messages = M ++ [a])
    (hi : i + 1 = r.length) :
    tick s T.length =
      { s with
        messages := M ++ [{ a with content := r }]
        timers := T } := by
  have hle : r.length ≤ i + 1 := by omega
  have htake : List.take (i + 1) r = r := List.take_of_length_le hle
  simp [tick, ht, hm, setLastContent_append_singleton, slice_zero, hle, htake,
    eraseIdx_concat_length]

/-- After `n` firings of the last interval, with the end of the text not yet
reached, the last message shows the first `i + n` characters. -/
theorem run_ticks_running (T : List Timer) (M : List Message) (r : Str) :
    ∀ (n : Nat) (s : State) (a : Message) (i : Nat),
      s.timers = T ++ [⟨r, i⟩] → s.messages = M ++ [a] → a.content = r.take i →
      i + n < r.length →
      run s (List.replicate n (Event.tick T.length)) =
        { s with
          messages := M ++ [{ a with content := r.take (i + n) }]
          timers := T ++ [⟨r, i + n⟩] } := by
  intro n
  induction n with
  | zero =>
    intro s a i ht hm ha _
    cases s; cases a
    simp only [State.mk.injEq, Message.mk.injEq] at *
    simp_all [run]
  | succ n ih =>
    intro s a i ht hm _ hi
    have h1 := tick_last_running s T M a r i ht hm (by omega)
    rw [List.replicate_succ]
    show run (tick s T.length) _ = _
    rw [h1, ih _ { a with content := r.take (i + 1) } (i + 1) rfl rfl rfl (by omega)]
    simp [Nat.add_assoc, Nat.add_comm 1 n]

/-- The state right after the successful response to a send. -/
theorem send_response (s : State) (timestamp assistantTime : Str) (conv : Option Str)
    (r : Str) (hm : ∀ m ∈ s.messages, m.isTyping = false) (hu : trim s.inputValue ≠ [])
    (hr : r ≠ []) :
    ∃ s2, onResponse (sendMessage s timestamp) s.requests.length ⟨conv, some r⟩
        assistantTime = s2 ∧
      s2.messages = (s.messages ++ [⟨Role.user, trim s.inputValue, timestamp, false⟩]) ++
        [⟨Role.assistant, [], assistantTime, false⟩] ∧
      s2.timers = s.timers ++ [⟨r, 0⟩] := by
  obtain ⟨c, cs, rfl⟩ := List.exists_cons_of_ne_nil hr
  have hrem := removeTyping_append_placeholder
    (s.messages ++ [⟨Role.user, trim s.inputValue, timestamp, false⟩]) []
    ⟨Role.assistant, [], [], true⟩
    (by
      intro m hmem
      rcases List.mem_append.mp hmem with h | h
      · exact hm m h
      · simp at h; subst h; rfl) rfl
  have hrem2 : removeTyping (s.messages ++
      [⟨Role.user, trim s.inputValue, timestamp, false⟩, ⟨Role.assistant, [], [], true⟩]) =
      s.messages ++ [⟨Role.user, trim s.inputValue, timestamp, false⟩] := by
    simpa using hrem
  refine ⟨_, rfl, ?_, ?_⟩
  · rw [sendMessage_messages s timestamp hu]
    simp only [onResponse, List.get?_eq_getElem?, List.getElem?_concat_length]
    simp [hrem2]
  · rw [sendMessage_messages s timestamp hu]
    simp only [onResponse, List.get?_eq_getElem?, List.getElem?_concat_length]

/-- C3. From a store `m` without typing placeholder, an input with a non-empty
trim and a non-empty reply `r`: after the send and its successful response the
interval keeps running for every number of firings below `length r` and is
cleared by firing number `length r`, and the store is then `m`, the user
message and one assistant message with content `r`, none of them a typing
placeholder. -/
theorem send_success (s : State) (timestamp assistantTime : Str) (conv : Option Str)
    (r : Str) (hm : ∀ m ∈ s.messages, m.isTyping = false) (hu : trim s.inputValue ≠ [])
    (hr : r ≠ []) :
    (∀ n, n < r.length →
      (sendAndReveal s timestamp ⟨conv, some r⟩ assistantTime n).timers =
        s.timers ++ [⟨r, n⟩]) ∧
    (sendAndReveal s timestamp ⟨conv, some r⟩ assistantTime r.length).timers = s.timers ∧
    (sendAndReveal s timestamp ⟨conv, some r⟩ assistantTime r.length).messages =
      s.messages ++ [⟨Role.user, trim s.inputValue, timestamp, false⟩,
        ⟨Role.assistant, r, assistantTime, false⟩] ∧
    (∀ m ∈ (sendAndReveal s timestamp ⟨conv, some r⟩ assistantTime r.length).messages,
      m.isTyping = false) := by
  obtain ⟨s2, h2, hmsg, htim⟩ := send_response s timestamp assistantTime conv r hm hu hr
  have hlen : 0 < r.length := List.length_pos.mpr hr
  have hrun : ∀ n, n < r.length →
      sendAndReveal s timestamp ⟨conv, some r⟩ assistantTime n =
        { s2 with
          messages := (s.messages ++ [⟨Role.user, trim s.inputValue, timestamp, false⟩]) ++
            [⟨Role.assistant, r.take n, assistantTime, false⟩]
          timers := s.timers ++ [⟨r, n⟩] } := by
    intro n hn
    unfold sendAndReveal
    rw [h2, run_ticks_running s.timers _ r n s2 _ 0 htim hmsg rfl (by omega)]
    simp
  have hfinal : sendAndReveal s timestamp ⟨conv, some r⟩ assistantTime r.length =
      { s2 with
        messages := (s.messages ++ [⟨Role.user, trim s.inputValue, timestamp, false⟩]) ++
          [⟨Role.assistant, r, assistantTime, false⟩]
        timers := s.timers } := by
    have hsplit : List.replicate r.length (Event.tick s.timers.length) =
        List.replicate (r.length - 1) (Event.tick s.timers.length) ++
          [Event.tick s.timers.length] := by
      rw [← List.replicate_succ', Nat.sub_add_cancel hlen]
    have hprev := hrun (r.length - 1) (by omega)
    unfold sendAndReveal at hprev ⊢
    rw [hsplit, run_append, hprev]
    show tick _ s.timers.length = _
    rw [tick_last_final _ s.timers _ _ r (r.length - 1) rfl rfl (by omega)]
  refine ⟨fun n hn => by rw [hrun n hn], by rw [hfinal], by rw [hfinal]; simp, ?_⟩
  intro m hmem
  rw [hfinal] at hmem
  simp only [List.mem_append, List.mem_singleton] at hmem
  rcases hmem with (h | h) | h
  · exact hm m h
  · subst h; rfl
  · subst h; rfl

theorem send_success_witness :
    let s : State := ⟨[⟨Role.user, (utf16 "hi"), (utf16 "t0"), false⟩], (utf16 " ok "),
      none, [], [], []⟩
    (∀ n, n < (utf16 "a😀").length →
      (sendAndReveal s (utf16 "t1") ⟨none, some (utf16 "a😀")⟩ (utf16 "t2") n).timers =
        s.timers ++ [⟨(utf16 "a😀"), n⟩]) ∧
    (sendAndReveal s (utf16 "t1") ⟨none, some (utf16 "a😀")⟩ (utf16 "t2")
      (utf16 "a😀").length).timers = s.timers ∧
    (sendAndReveal s (utf16 "t1") ⟨none, some (utf16 "a😀")⟩ (utf16 "t2")
      (utf16 "a😀").length).messages =
      s.messages ++ [⟨Role.user, trim s.inputValue, (utf16 "t1"), false⟩,
        ⟨Role.assistant, (utf16 "a😀"), (utf16 "t2"), false⟩] ∧
    (∀ m ∈ (sendAndReveal s (utf16 "t1") ⟨none, some (utf16 "a😀")⟩ (utf16 "t2")
      (utf16 "a😀").length).messages, m.isTyping = false) :=
  send_success _ _ _ _ _ (by decide) (by decide) (by decide)

/-! ## The typing placeholder -/

theorem typingCount_step (s : State) (e : Event) (h : typingCount s.messages ≤ 1)
    (hs : singleFlight s [e] = true) : typingCount (step s e).messages ≤ 1 := by
  cases e with
  | input value => exact h
  | search value => exact h
  | send timestamp =>
    simp only [singleFlight, Bool.and_true, Bool.or_eq_true, beq_iff_eq] at hs
    show typingCount (sendMessage s timestamp).messages ≤ 1
    unfold sendMessage
    rcases hs with hb | h0
    · simp [hb, h]
    · by_cases hb : (trim s.inputValue).isEmpty = true
      · simp [hb, h]
      · simp only [hb, Bool.false_eq_true, if_false]
        simp only [typingCount] at h0 ⊢
        simp [List.countP_append, List.countP_cons, h0]
  | response k data assistantTime =>
    show typingCount (onResponse s k data assistantTime).messages ≤ 1
    have hle := typingCount_removeTyping_le s.messages
    unfold onResponse
    cases s.requests.get? k with
    | none => exact h
    | some req =>
      cases data.assistantMessage with
      | none => exact le_trans hle h
      | some r =>
        cases r with
        | nil => exact le_trans hle h
        | cons c cs =>
          have : typingCount (removeTyping s.messages ++
              [⟨Role.assistant, [], assistantTime, false⟩]) =
              typingCount (removeTyping s.messages) := by
            simp [typingCount, List.countP_append, List.countP_cons]
          show typingCount (removeTyping s.messages ++ _) ≤ 1
          rw [this]; exact le_trans hle h
  | failure k =>
    show typingCount (onFailure s k).messages ≤ 1
    have hle := typingCount_removeTyping_le s.messages
    unfold onFailure
    cases s.requests.get? k with
    | none => exact h
    | some req => exact le_trans hle h
  | tick k =>
    show typingCount (tick s k).messages ≤ 1
    unfold tick
    cases s.timers.get? k with
    | none => exact h
    | some tm =>
      show typingCount (setLastContent _ s.messages) ≤ 1
      rw [typingCount_setLastContent]; exact h

theorem typingCount_run (es : List Event) :
    ∀ s : State, typingCount s.messages ≤ 1 → singleFlight s es = true →
      typingCount (run s es).messages ≤ 1 := by
  induction es with
  | nil => intro s h _; exact h
  | cons e es ih =>
    intro s h hs
    have hs2 : singleFlight s [e] = true ∧ singleFlight (step s e) es = true := by
      simp only [singleFlight, Bool.and_eq_true] at hs ⊢
      exact ⟨⟨hs.1, trivial⟩, hs.2⟩
    exact ih (step s e) (typingCount_step s e h hs2.1) hs2.2

/-- C5, as the claim states it, fails: two sends in a row, the second before
the first response, leave two typing placeholders in the store. -/
theorem two_placeholders : ¬ typingCount (run State.init twoSends).messages ≤ 1 := by
  decide

/-- C5, amended. In every store reached from the empty store by a run in which
each send with a non-blank input happens while the store holds no typing
placeholder, at most one message has `isTyping = true`. -/
theorem at_most_one_placeholder (es : List Event)
    (h : singleFlight State.init es = true) :
    typingCount (run State.init es).messages ≤ 1 :=
  typingCount_run es State.init (by decide) h

theorem at_most_one_placeholder_witness :
    singleFlight State.init
        [Event.input (utf16 "a"), Event.send (utf16 "t1"),
         Event.response 0 ⟨none, some (utf16 "xy")⟩ (utf16 "t2"), Event.tick 0,
         Event.input (utf16 "b"), Event.send (utf16 "t3")] = true ∧
      typingCount (run State.init
        [Event.input (utf16 "a"), Event.send (utf16 "t1"),
         Event.response 0 ⟨none, some (utf16 "xy")⟩ (utf16 "t2"), Event.tick 0,
         Event.input (utf16 "b"), Event.send (utf16 "t3")]).messages ≤ 1 :=
  ⟨by decide, at_most_one_placeholder _ (by decide)⟩

/-! ## What a firing of the interval changes -/

theorem revealInv_step (s : State) (e : Event) (h : RevealInv s)
    (hs : oneAtATime s [e] = true) : RevealInv (step s e) := by
  cases e with
  | input value => exact h
  | search value => exact h
  | send timestamp =>
    simp only [oneAtATime, Bool.and_true, Bool.or_eq_true, Bool.and_eq_true,
      List.isEmpty_iff] at hs
    show RevealInv (sendMessage s timestamp)
    unfold sendMessage
    by_cases hb : (trim s.inputValue).isEmpty = true
    · simpa [hb] using h
    · rcases hs with hb2 | ⟨hr, ht⟩
      · exact absurd (by simpa using hb2) hb
      · simp only [hb, Bool.false_eq_true, if_false]
        exact Or.inl ⟨ht, by simp [hr]⟩
  | response k data assistantTime =>
    show RevealInv (onResponse s k data assistantTime)
    unfold onResponse
    cases hk : s.requests.get? k with
    | none => exact h
    | some req =>
      rcases h with ⟨ht, hr⟩ | ⟨hr, _⟩
      · have hlen : (s.requests.eraseIdx k).length = 0 := by
          have hk2 : k < s.requests.length := by
            rw [List.get?_eq_getElem?] at hk
            exact (List.getElem?_eq_some_iff.mp hk).1
          rw [List.length_eraseIdx]
          simp [hk2]; omega
        have hnil : s.requests.eraseIdx k = [] := List.length_eq_zero.mp hlen
        cases data.assistantMessage with
        | none => exact Or.inl ⟨ht, by simp [hnil]⟩
        | some r =>
          cases r with
          | nil => exact Or.inl ⟨ht, by simp [hnil]⟩
          | cons c cs =>
            refine Or.inr ⟨hnil, ⟨c :: cs, 0⟩, removeTyping s.messages,
              ⟨Role.assistant, [], assistantTime, false⟩, ?_, rfl, rfl, rfl, rfl, ?_⟩
            · simp [ht]
            · simp
      · rw [hr] at hk; simp at hk
  | failure k =>
    show RevealInv (onFailure s k)
    unfold onFailure
    cases hk : s.requests.get? k with
    | none => exact h
    | some req =>
      rcases h with ⟨ht, hr⟩ | ⟨hr, _⟩
      · have hk2 : k < s.requests.length := by
          rw [List.get?_eq_getElem?] at hk
          exact (List.getElem?_eq_some_iff.mp hk).1
        refine Or.inl ⟨ht, ?_⟩
        show (s.requests.eraseIdx k).length ≤ 1
        rw [List.length_eraseIdx]
        simp [hk2]; omega
      · rw [hr] at hk; simp at hk
  | tick k =>
    show RevealInv (tick s k)
    unfold tick
    cases hk : s.timers.get? k with
    | none => exact h
    | some tm =>
      rcases h with ⟨ht, _⟩ | ⟨hr, tm0, M, a, ht, hm, hrole, htyp, hcont, hi⟩
      · rw [ht] at hk; simp at hk
      · have hk0 : k = 0 ∧ tm = tm0 := by
          rw [ht] at hk
          cases k with
          | zero => simp at hk; exact ⟨rfl, hk.symm⟩
          | succ j => simp at hk
        obtain ⟨rfl, rfl⟩ := hk0
        by_cases hend : tm.i + 1 ≥ tm.fullText.length
        · refine Or.inl ⟨?_, by simp [hr]⟩
          simp [hend, ht]
        · refine Or.inr ⟨hr, ⟨tm.fullText, tm.i + 1⟩, M,
            { a with content := tm.fullText.take (tm.i + 1) }, ?_, ?_, hrole, htyp, rfl, ?_⟩
          · simp [hend, ht]
          · simp [hm, setLastContent_append_singleton, slice_zero]
          · simp at hend ⊢; omega

theorem revealInv_run (es : List Event) :
    ∀ s : State, RevealInv s → oneAtATime s es = true → RevealInv (run s es) := by
  induction es with
  | nil => intro s h _; exact h
  | cons e es ih =>
    intro s h hs
    have hs2 : oneAtATime s [e] = true ∧ oneAtATime (step s e) es = true := by
      simp only [oneAtATime, Bool.and_eq_true] at hs ⊢
      exact ⟨⟨hs.1, trivial⟩, hs.2⟩
    exact ih (step s e) (revealInv_step s e h hs2.1) hs2.2

/-- C6, as the claim states it, fails: when a message is sent, and its request
fails, during a reveal, the next firing of the interval overwrites the content
of the user message that is now last in the store. -/
theorem tick_overwrites_user_message :
    (run State.init sendDuringReveal).messages.get? 2 =
        some ⟨Role.user, (utf16 "b"), (utf16 "t3"), false⟩ ∧
      (step (run State.init sendDuringReveal) (Event.tick 0)).messages.get? 2 =
        some ⟨Role.user, (utf16 "x"), (utf16 "t3"), false⟩ := by
  decide

/-- C6, amended. In a run from the empty store in which each send with a
non-blank input happens while no request is in flight and no interval is
running, a firing of a running interval finds as last message of the store the
assistant message under reveal (role assistant, not a placeholder, showing the
first `i` characters of the reply) and changes the content of that message to
the first `i + 1` characters, and nothing else in the store. -/
theorem tick_changes_only_reveal (es : List Event) (k : Nat) (tm : Timer)
    (h : oneAtATime State.init es = true)
    (hk : (run State.init es).timers.get? k = some tm) :
    ∃ M a, (run State.init es).messages = M ++ [a] ∧
      a.role = Role.assistant ∧ a.isTyping = false ∧
      a.content = tm.fullText.take tm.i ∧
      (step (run State.init es) (Event.tick k)).messages =
        M ++ [{ a with content := tm.fullText.take (tm.i + 1) }] := by
  have hinv := revealInv_run es State.init (Or.inl ⟨rfl, by decide⟩) h
  rcases hinv with ⟨ht, _⟩ | ⟨_, tm0, M, a, ht, hm, hrole, htyp, hcont, _⟩
  · rw [ht] at hk; simp at hk
  · have hk0 : tm = tm0 := by
      rw [ht] at hk
      cases k with
      | zero => simp at hk; exact hk.symm
      | succ j => simp at hk
    subst hk0
    refine ⟨M, a, hm, hrole, htyp, hcont, ?_⟩
    show (tick (run State.init es) k).messages = _
    unfold tick
    rw [hk]
    simp [hm, setLastContent_append_singleton, slice_zero]

theorem tick_changes_only_reveal_witness :
    ∃ M a, (run State.init
        [Event.input (utf16 "a"), Event.send (utf16 "t1"),
         Event.response 0 ⟨none, some (utf16 "😀")⟩ (utf16 "t2")]).messages = M ++ [a] ∧
      a.role = Role.assistant ∧ a.isTyping = false ∧
      a.content = (⟨(utf16 "😀"), 0⟩ : Timer).fullText.take (⟨(utf16 "😀"), 0⟩ : Timer).i ∧
      (step (run State.init
        [Event.input (utf16 "a"), Event.send (utf16 "t1"),
         Event.response 0 ⟨none, some (utf16 "😀")⟩ (utf16 "t2")]) (Event.tick 0)).messages =
        M ++ [{ a with content :=
          (⟨(utf16 "😀"), 0⟩ : Timer).fullText.take ((⟨(utf16 "😀"), 0⟩ : Timer).i + 1) }] :=
  tick_changes_only_reveal _ 0 ⟨(utf16 "😀"), 0⟩ (by decide) (by decide)

/-- A reply is revealed code unit by code unit: after the response with the
reply U+1F600 and one firing, the message shows the high surrogate alone and
the interval is still running; the second firing completes the reply and
clears the interval. -/
theorem reveal_by_code_units :
    utf16 "😀" = [55357, 56832] ∧
      ((run State.init
        [Event.input (utf16 "a"), Event.send (utf16 "t1"),
         Event.response 0 ⟨none, some (utf16 "😀")⟩ (utf16 "t2"),
         Event.tick 0]).messages.map (fun m => m.content)) = [[97], [55357]] ∧
      (run State.init
        [Event.input (utf16 "a"), Event.send (utf16 "t1"),
         Event.response 0 ⟨none, some (utf16 "😀")⟩ (utf16 "t2"),
         Event.tick 0]).timers = [⟨[55357, 56832], 1⟩] ∧
      ((run State.init
        [Event.input (utf16 "a"), Event.send (utf16 "t1"),
         Event.response 0 ⟨none, some (utf16 "😀")⟩ (utf16 "t2"),
         Event.tick 0, Event.tick 0]).messages.map (fun m => m.content)) =
        [[97], [55357, 56832]] ∧
      (run State.init
        [Event.input (utf16 "a"), Event.send (utf16 "t1"),
         Event.response 0 ⟨none, some (utf16 "😀")⟩ (utf16 "t2"),
         Event.tick 0, Event.tick 0]).timers = [] := by
  decide

/-! ## No message is deleted or moved -/

theorem sameRecord_refl (l : List Message) : List.Forall₂ sameRecord l l := by
  induction l with
  | nil => exact List.Forall₂.nil
  | cons a as ih => exact List.Forall₂.cons ⟨rfl, rfl, rfl⟩ ih

theorem sameRecord_setLastContent (shown : Str) (l : List Message) :
    List.Forall₂ sameRecord l (setLastContent shown l) := by
  rcases List.eq_nil_or_concat l with h | ⟨l1, a, h⟩
  · subst h; exact List.Forall₂.nil
  · subst h
    rw [List.concat_eq_append, setLastContent_append_singleton]
    exact List.rel_append (sameRecord_refl l1)
      (List.Forall₂.cons ⟨rfl, rfl, rfl⟩ List.Forall₂.nil)

theorem dropLast_setLastContent (shown : Str) (l : List Message) :
    (setLastContent shown l).dropLast = l.dropLast := by
  rcases List.eq_nil_or_concat l with h | ⟨l1, a, h⟩
  · subst h; rfl
  · subst h
    rw [List.concat_eq_append, setLastContent_append_singleton]
    simp

/-- C7. For every state and every event, the new store is `kept ++ appended`,
where `kept` is the old store with at most one message taken out, a typing
placeholder: position by position the same records, equal to the old ones in
every field except that a firing of the interval may have changed the content
of the last one. So no other message is removed, none is moved, and what an
event appends comes after all of them. -/
theorem step_keeps_messages (s : State) (e : Event) :
    ∃ l1 removed l2 kept appended,
      s.messages = l1 ++ removed ++ l2 ∧ removed.length ≤ 1 ∧
      (∀ m ∈ removed, m.isTyping = true) ∧
      (step s e).messages = kept ++ appended ∧
      List.Forall₂ sameRecord (l1 ++ l2) kept ∧
      kept.dropLast = (l1 ++ l2).dropLast ∧
      ((∀ k, e ≠ Event.tick k) → kept = l1 ++ l2) := by
  have same : ∀ appended, ∃ l1 removed l2 kept appended2,
      s.messages = l1 ++ removed ++ l2 ∧ removed.length ≤ 1 ∧
      (∀ m ∈ removed, m.isTyping = true) ∧
      s.messages ++ appended = kept ++ appended2 ∧
      List.Forall₂ sameRecord (l1 ++ l2) kept ∧
      kept.dropLast = (l1 ++ l2).dropLast ∧
      ((∀ k, e ≠ Event.tick k) → kept = l1 ++ l2) := by
    intro appended
    exact ⟨s.messages, [], [], s.messages, appended, by simp, by simp, by simp, rfl,
      by simpa using sameRecord_refl s.messages, by simp, fun _ => by simp⟩
  have removedOne : ∀ appended, ∃ l1 removed l2 kept appended2,
      s.messages = l1 ++ removed ++ l2 ∧ removed.length ≤ 1 ∧
      (∀ m ∈ removed, m.isTyping = true) ∧
      removeTyping s.messages ++ appended = kept ++ appended2 ∧
      List.Forall₂ sameRecord (l1 ++ l2) kept ∧
      kept.dropLast = (l1 ++ l2).dropLast ∧
      ((∀ k, e ≠ Event.tick k) → kept = l1 ++ l2) := by
    intro appended
    obtain ⟨l1, removed, l2, h1, h2, h3, h4⟩ := removeTyping_split s.messages
    exact ⟨l1, removed, l2, l1 ++ l2, appended, h1, h2, h3, by rw [h4],
      sameRecord_refl _, rfl, fun _ => rfl⟩
  cases e with
  | input value => simpa using same []
  | search value => simpa using same []
  | send timestamp =>
    show ∃ l1 removed l2 kept appended, _ ∧ _ ∧ _ ∧
      (sendMessage s timestamp).messages = kept ++ appended ∧ _
    unfold sendMessage
    by_cases hb : (trim s.inputValue).isEmpty = true
    · simpa [hb] using same []
    · simp only [hb, Bool.false_eq_true, if_false]
      simpa only [List.append_assoc] using
        same [⟨Role.user, trim s.inputValue, timestamp, false⟩, ⟨Role.assistant, [], [], true⟩]
  | response k data assistantTime =>
    show ∃ l1 removed l2 kept appended, _ ∧ _ ∧ _ ∧
      (onResponse s k data assistantTime).messages = kept ++ appended ∧ _
    unfold onResponse
    cases s.requests.get? k with
    | none => simpa using same []
    | some req =>
      cases data.assistantMessage with
      | none => simpa using removedOne []
      | some r =>
        cases r with
        | nil => simpa using removedOne []
        | cons c cs => exact removedOne _
  | failure k =>
    show ∃ l1 removed l2 kept appended, _ ∧ _ ∧ _ ∧
      (onFailure s k).messages = kept ++ appended ∧ _
    unfold onFailure
    cases s.requests.get? k with
    | none => simpa using same []
    | some req => simpa using removedOne []
  | tick k =>
    show ∃ l1 removed l2 kept appended, _ ∧ _ ∧ _ ∧
      (tick s k).messages = kept ++ appended ∧ _
    unfold tick
    cases s.timers.get? k with
    | none => simpa using same []
    | some tm =>
      exact ⟨s.messages, [], [], setLastContent (slice tm.fullText 0 (tm.i + 1)) s.messages,
        [], by simp, by simp, by simp, by simp,
        by simpa using sameRecord_setLastContent _ s.messages,
        by simpa using dropLast_setLastContent _ s.messages,
        fun hne => absurd rfl (hne k)⟩

/-! ## The search filter -/

theorem includes_iff_occurs (s t : Str) : includes s t = true ↔ t <:+: s := by
  induction s with
  | nil =>
    simp [includes, List.isEmpty_iff]
  | cons c cs ih =>
    simp only [includes, Bool.or_eq_true, ih, List.isPrefixOf_iff_prefix]
    exact List.infix_cons_iff.symm

/-- C8, as the claim states it, fails: the term capital sigma stands in the
content capital alpha, capital sigma as it is, but `toLowerCase` turns the
sigma at the end of the content into the final sigma and the term into the
plain small sigma, so the message is filtered out. -/
theorem final_sigma_filtered_out :
    utf16 "\u0391\u03a3" = [913, 931] ∧ utf16 "\u03a3" = [931] ∧
      utf16 "\u03a3" <:+: utf16 "\u0391\u03a3" ∧
      lowerAlphaSigma (utf16 "\u0391\u03a3") = utf16 "\u03b1\u03c2" ∧
      lowerAlphaSigma (utf16 "\u03a3") = utf16 "\u03c3" ∧
      filteredMessages lowerAlphaSigma
        [⟨Role.user, utf16 "\u0391\u03a3", utf16 "t1", false⟩] (utf16 "\u03a3") = [] := by
  decide

/-- C8, amended. Whatever `toLowerCase` computes (it maps the empty string to
itself): the filtered list is the store filtered, in store order, by "the
lower-cased search term occurs in the lower-cased content"; with the empty
term it is the whole store, with a term whose lower-cased form occurs in no
lower-cased content it is empty, and, `HELLO` lower-casing to `hello`, the term
`HELLO` keeps a message whose content lower-cases to `hello world`. -/
theorem filteredMessages_spec (toLowerCase : Str → Str) (messages : List Message) (t : Str)
    (h0 : toLowerCase [] = []) :
    filteredMessages toLowerCase messages t =
        messages.filter (fun m => decide (toLowerCase t <:+: toLowerCase m.content)) ∧
      List.Sublist (filteredMessages toLowerCase messages t) messages ∧
      (∀ m, m ∈ filteredMessages toLowerCase messages t ↔
        m ∈ messages ∧ ∃ pre post, toLowerCase m.content = pre ++ toLowerCase t ++ post) ∧
      filteredMessages toLowerCase messages [] = messages ∧
      ((∀ m ∈ messages, ¬ toLowerCase t <:+: toLowerCase m.content) →
        filteredMessages toLowerCase messages t = []) ∧
      (toLowerCase (utf16 "HELLO") = utf16 "hello" →
        ∀ m : Message, toLowerCase m.content = utf16 "hello world" →
          filteredMessages toLowerCase [m] (utf16 "HELLO") = [m]) := by
  have h1 : filteredMessages toLowerCase messages t =
      messages.filter (fun m => decide (toLowerCase t <:+: toLowerCase m.content)) := by
    unfold filteredMessages
    congr 1
    funext m
    rw [Bool.eq_iff_iff]
    simp [includes_iff_occurs]
  refine ⟨h1, ?_, ?_, ?_, ?_, ?_⟩
  · unfold filteredMessages
    exact List.filter_sublist _
  · intro m
    unfold filteredMessages
    rw [List.mem_filter, includes_iff_occurs]
    constructor
    · rintro ⟨hm, pre, post, hpp⟩
      exact ⟨hm, pre, post, hpp.symm⟩
    · rintro ⟨hm, pre, post, hpp⟩
      exact ⟨hm, pre, post, hpp.symm⟩
  · unfold filteredMessages
    rw [List.filter_eq_self]
    intro m _
    rw [includes_iff_occurs, h0]
    exact List.nil_infix
  · intro hno
    rw [h1, List.filter_eq_nil_iff]
    intro m hm
    simpa using hno m hm
  · intro hH m hm
    unfold filteredMessages
    rw [List.filter_eq_self]
    intro a ha
    simp only [List.mem_singleton] at ha
    subst ha
    rw [hm, hH]
    decide

theorem filteredMessages_spec_witness :
    lowerASCII [] = [] ∧
      filteredMessages lowerASCII
          [⟨Role.user, utf16 "Hello World", utf16 "t1", false⟩,
           ⟨Role.assistant, utf16 "bye", utf16 "t2", false⟩] (utf16 "HELLO") =
        [⟨Role.user, utf16 "Hello World", utf16 "t1", false⟩] :=
  ⟨rfl, ((filteredMessages_spec lowerASCII
      [⟨Role.user, utf16 "Hello World", utf16 "t1", false⟩,
       ⟨Role.assistant, utf16 "bye", utf16 "t2", false⟩] (utf16 "HELLO") rfl).1).trans
    (by decide)⟩

/-! ## The segment renderer: round trip -/

theorem partsSource_append (ps qs : List Part) :
    partsSource (ps ++ qs) = partsSource ps ++ partsSource qs := by
  induction ps with
  | nil => rfl
  | cons p ps ih => simp [partsSource, ih]

theorem closeFence_some (u cap : Str) (h : closeFence u = some cap) :
    ∃ rest, u = cap ++ fence ++ rest := by
  induction u generalizing cap with
  | nil => simp [closeFence] at h
  | cons c cs ih =>
    unfold closeFence at h
    by_cases hp : fence.isPrefixOf (c :: cs) = true
    · rw [if_pos hp] at h
      obtain ⟨rest, hrest⟩ := List.isPrefixOf_iff_prefix.mp hp
      cases h
      exact ⟨rest, by simpa using hrest.symm⟩
    · rw [if_neg hp] at h
      cases hc : closeFence cs with
      | none => rw [hc] at h; simp at h
      | some cap2 =>
        rw [hc] at h
        simp only [Option.map_some', Option.some.injEq] at h
        obtain ⟨rest, hrest⟩ := ih cap2 hc
        exact ⟨rest, by rw [← h, hrest]; simp⟩

theorem matchHere_some (u cap : Str) (h : matchHere u = some cap) :
    ∃ rest, u = fence ++ cap ++ fence ++ rest := by
  unfold matchHere at h
  by_cases hp : fence.isPrefixOf u = true
  · rw [if_pos hp] at h
    obtain ⟨t, ht⟩ := List.isPrefixOf_iff_prefix.mp hp
    have hd : u.drop 3 = t := by
      rw [← ht]
      exact List.drop_left' (by decide)
    rw [hd] at h
    obtain ⟨rest, hrest⟩ := closeFence_some t cap h
    exact ⟨rest, by rw [← ht, hrest]; simp⟩
  · rw [if_neg hp] at h; simp at h

theorem scanFrom_some (u : Str) :
    ∀ (k i : Nat) (cap : Str), scanFrom u k = some (i, cap) →
      ∃ pre rest, u = pre ++ fence ++ cap ++ fence ++ rest ∧ i = k + pre.length := by
  induction u with
  | nil => intro k i cap h; simp [scanFrom] at h
  | cons c cs ih =>
    intro k i cap h
    unfold scanFrom at h
    cases hm : matchHere (c :: cs) with
    | some cap2 =>
      rw [hm] at h
      simp only [Option.some.injEq, Prod.mk.injEq] at h
      obtain ⟨rest, hrest⟩ := matchHere_some _ _ hm
      exact ⟨[], rest, by rw [hrest, ← h.2]; simp, by simp [h.1]⟩
    | none =>
      rw [hm] at h
      obtain ⟨pre, rest, h1, h2⟩ := ih (k + 1) i cap h
      exact ⟨c :: pre, rest, by rw [h1]; simp, by simp [h2]; omega⟩

/-- What a successful `exec` says about the text from `lastIndex` on. -/
theorem exec_some (content : Str) (lastIndex : Nat) (m : Match)
    (h : exec content lastIndex = some m) :
    ∃ pre rest, content.drop lastIndex = pre ++ fence ++ m.group1 ++ fence ++ rest ∧
      m.index = lastIndex + pre.length ∧
      m.lastIndex = m.index + 3 + m.group1.length + 3 ∧
      slice content lastIndex m.index = pre ∧
      content.drop m.lastIndex = rest := by
  unfold exec at h
  cases hs : scanFrom (content.drop lastIndex) lastIndex with
  | none => rw [hs] at h; simp at h
  | some r =>
    obtain ⟨i, cap⟩ := r
    rw [hs] at h
    simp only [Option.some.injEq] at h
    obtain ⟨pre, rest, h1, h2⟩ := scanFrom_some _ _ _ _ hs
    subst h
    refine ⟨pre, rest, h1, h2, rfl, ?_, ?_⟩
    · show (content.take i).drop lastIndex = pre
      rw [List.drop_take, h1, h2]
      simp
    · show content.drop (i + 3 + cap.length + 3) = rest
      have hlen : fence.length = 3 := by decide
      have : i + 3 + cap.length + 3 =
          lastIndex + (pre ++ fence ++ cap ++ fence).length := by
        simp [hlen, h2]; omega
      rw [this, ← List.drop_drop, h1]
      have h3 : pre ++ fence ++ cap ++ fence ++ rest = (pre ++ fence ++ cap ++ fence) ++ rest := by
        simp
      rw [h3, List.drop_left]

/-- The loop ends within `fuel` iterations once `fuel` exceeds the number of
characters still to scan, and what it adds to `parts` is the source text
between the old and the new `lastIndex`. -/
theorem partsLoop_spec (content : Str) :
    ∀ (fuel lastIndex : Nat) (parts : List Part),
      lastIndex ≤ content.length → content.length - lastIndex < fuel →
      ∃ parts2 lastIndex2, partsLoop content fuel lastIndex parts = some (parts2, lastIndex2) ∧
        lastIndex2 ≤ content.length ∧
        partsSource parts2 ++ content.drop lastIndex2 =
          partsSource parts ++ content.drop lastIndex := by
  intro fuel
  induction fuel with
  | zero => intro lastIndex parts _ h; omega
  | succ fuel ih =>
    intro lastIndex parts hle hfuel
    unfold partsLoop
    cases he : exec content lastIndex with
    | none => exact ⟨parts, lastIndex, rfl, hle, rfl⟩
    | some m =>
      obtain ⟨pre, rest, h1, h2, h3, h4, h5⟩ := exec_some content lastIndex m he
      have hlen : fence.length = 3 := by decide
      have hl : content.length - lastIndex =
          pre.length + 3 + m.group1.length + 3 + rest.length := by
        have := congrArg List.length h1
        simp [hlen] at this
        omega
      obtain ⟨parts2, lastIndex2, hloop, hle2, hsrc⟩ :=
        ih m.lastIndex
          ((if m.index > lastIndex
            then parts ++ [⟨PartType.text, slice content lastIndex m.index⟩]
            else parts) ++ [⟨PartType.code, m.group1⟩])
          (by omega) (by omega)
      refine ⟨parts2, lastIndex2, hloop, hle2, ?_⟩
      rw [hsrc, h5, h1, h4]
      by_cases hgt : m.index > lastIndex
      · simp [hgt, partsSource_append, partsSource, partSource]
      · have hpre : pre = [] := by
          apply List.length_eq_zero.mp; omega
        simp [hgt, hpre, partsSource_append, partsSource, partSource]

/-- C1. For every content `s` the segment list is built, and the source texts
of the segments (a text segment is its content, a code segment its content
between two fences), concatenated in order, give back exactly `s`. -/
theorem parts_roundtrip (s : Str) :
    ∃ parts, renderMessageContentParts s = some parts ∧ partsSource parts = s := by
  obtain ⟨parts, lastIndex, hloop, hle, hsrc⟩ :=
    partsLoop_spec s (s.length + 1) 0 [] (Nat.zero_le _) (by omega)
  unfold renderMessageContentParts
  rw [hloop]
  simp only [partsSource, List.drop_zero, List.nil_append] at hsrc
  by_cases hlt : lastIndex < s.length
  · refine ⟨_, rfl, ?_⟩
    simp only [hlt, if_true, partsSource_append, partsSource, partSource, List.append_nil]
    exact hsrc
  · have hnil : s.drop lastIndex = [] := List.drop_eq_nil_iff.mpr (by omega)
    refine ⟨_, rfl, ?_⟩
    simp only [hlt, if_false]
    rw [hnil, List.append_nil] at hsrc
    exact hsrc

/-! ## The segment renderer: balanced fences -/

theorem fence_eq : fence = [backtick, backtick, backtick] := by decide

theorem clean_tail (a : CodeUnit) (t : Str) (h : clean (a :: t) = true) : clean t = true := by
  unfold clean at h ⊢
  simp only [Bool.and_eq_true, Bool.not_eq_true', bne_iff_ne, ne_eq, includes,
    Bool.or_eq_false_iff] at h ⊢
  refine ⟨h.1.2, ?_⟩
  cases t with
  | nil => simp
  | cons b bs => simpa [List.getLast?_cons_cons] using h.2

theorem fence_not_isPrefixOf (a : CodeUnit) (t X : Str) (h : clean (a :: t) = true) :
    fence.isPrefixOf (a :: t ++ fence ++ X) = false := by
  unfold clean at h
  rw [fence_eq] at h ⊢
  simp only [Bool.and_eq_true, Bool.not_eq_true', bne_iff_ne, ne_eq] at h
  obtain ⟨h1, h2⟩ := h
  by_cases ha : backtick = a
  · subst ha
    cases t with
    | nil => simp at h2
    | cons a2 t2 =>
      by_cases ha2 : backtick = a2
      · subst ha2
        cases t2 with
        | nil => simp at h2
        | cons a3 t3 =>
          by_cases ha3 : backtick = a3
          · subst ha3
            simp [includes, List.isPrefixOf] at h1
          · simp [List.isPrefixOf, ha3]
      · simp [List.isPrefixOf, ha2]
  · simp [List.isPrefixOf, ha]

theorem closeFence_clean (c rest : Str) (h : clean c = true) :
    closeFence (c ++ fence ++ rest) = some c := by
  induction c with
  | nil =>
    have : fence ++ rest = backtick :: (backtick :: backtick :: rest) := by
      rw [fence_eq]; rfl
    rw [List.nil_append, this]
    unfold closeFence
    rw [← this]
    have hp : fence.isPrefixOf (fence ++ rest) = true :=
      List.isPrefixOf_iff_prefix.mpr (List.prefix_append _ _)
    simp [hp]
  | cons a t ih =>
    have hn := fence_not_isPrefixOf a t rest h
    have ht := ih (clean_tail a t h)
    show closeFence (a :: (t ++ fence ++ rest)) = some (a :: t)
    have hn2 : ¬ fence.isPrefixOf (a :: (t ++ fence ++ rest)) = true := by
      have : fence.isPrefixOf (a :: (t ++ fence ++ rest)) = false := hn
      rw [this]; exact Bool.false_ne_true
    unfold closeFence
    rw [if_neg hn2, ht]; rfl

theorem matchHere_fenced (c rest : Str) (h : clean c = true) :
    matchHere (fence ++ (c ++ fence ++ rest)) = some c := by
  unfold matchHere
  have hp : fence.isPrefixOf (fence ++ (c ++ fence ++ rest)) = true :=
    List.isPrefixOf_iff_prefix.mpr (List.prefix_append _ _)
  have hd : (fence ++ (c ++ fence ++ rest)).drop 3 = c ++ fence ++ rest :=
    List.drop_left' (by decide)
  rw [if_pos hp, hd]
  exact closeFence_clean c rest h

theorem scanFrom_of_matchHere (u : Str) (k : Nat) (cap : Str)
    (h : matchHere u = some cap) : scanFrom u k = some (k, cap) := by
  cases u with
  | nil => simp [matchHere, fence_eq] at h
  | cons a u =>
    unfold scanFrom
    rw [h]

theorem scanFrom_clean (t : Str) :
    ∀ (k : Nat) (c rest : Str), clean t = true → clean c = true →
      scanFrom (t ++ (fence ++ (c ++ fence ++ rest))) k = some (k + t.length, c) := by
  induction t with
  | nil =>
    intro k c rest _ hc
    rw [List.nil_append, scanFrom_of_matchHere _ k c (matchHere_fenced c rest hc)]
    simp
  | cons a t ih =>
    intro k c rest ht hc
    have hn := fence_not_isPrefixOf a t (c ++ fence ++ rest) ht
    have hn2 : fence.isPrefixOf (a :: (t ++ (fence ++ (c ++ fence ++ rest)))) = false := by
      simpa using hn
    show scanFrom (a :: (t ++ (fence ++ (c ++ fence ++ rest)))) k = _
    unfold scanFrom
    have hm : matchHere (a :: (t ++ (fence ++ (c ++ fence ++ rest)))) = none := by
      unfold matchHere; rw [hn2]; rfl
    rw [hm]
    show scanFrom (t ++ (fence ++ (c ++ fence ++ rest))) (k + 1) = _
    rw [ih (k + 1) c rest (clean_tail a t ht) hc]
    simp; omega

theorem scanFrom_none (t : Str) :
    ∀ k : Nat, includes t fence = false → scanFrom t k = none := by
  induction t with
  | nil => intro k _; rfl
  | cons a t ih =>
    intro k h
    simp only [includes, Bool.or_eq_false_iff] at h
    unfold scanFrom
    have hm : matchHere (a :: t) = none := by
      unfold matchHere; rw [h.1]; rfl
    rw [hm]
    exact ih (k + 1) h.2

theorem exec_fenced (pre0 t c rest : Str) (ht : clean t = true) (hc : clean c = true) :
    exec (pre0 ++ (t ++ (fence ++ (c ++ fence ++ rest)))) pre0.length =
      some ⟨pre0.length + t.length, c, pre0.length + t.length + 3 + c.length + 3⟩ := by
  unfold exec
  rw [List.drop_left, scanFrom_clean t pre0.length c rest ht hc]

theorem exec_no_fence (pre0 t : Str) (h : includes t fence = false) :
    exec (pre0 ++ t) pre0.length = none := by
  unfold exec
  rw [List.drop_left, scanFrom_none t pre0.length h]

theorem slice_middle (pre0 t rest : Str) :
    slice (pre0 ++ (t ++ rest)) pre0.length (pre0.length + t.length) = t := by
  unfold slice
  rw [List.drop_take]
  simp

/-- The loop on `fenced t0 pairs`, started behind a part `pre0` of the content
that was already scanned: it finds the expected segments, and stops in front
of the text after the last fence. -/
theorem partsLoop_fenced (pairs : List (Str × Str)) :
    ∀ (t0 pre0 : Str) (parts : List Part) (fuel : Nat),
      cleanPairs t0 pairs = true → pairs.length < fuel →
      partsLoop (pre0 ++ fenced t0 pairs) fuel pre0.length parts =
        some (parts ++ loopParts t0 pairs,
          (pre0 ++ fenced t0 pairs).length - (lastText t0 pairs).length) := by
  induction pairs with
  | nil =>
    intro t0 pre0 parts fuel hcl hfuel
    obtain ⟨f, rfl⟩ : ∃ f, fuel = f + 1 := ⟨fuel - 1, by simp at hfuel; omega⟩
    simp only [cleanPairs, Bool.not_eq_true'] at hcl
    simp only [fenced, lastText, loopParts, List.append_nil]
    unfold partsLoop
    rw [exec_no_fence pre0 t0 hcl]
    simp
  | cons p rest ih =>
    intro t0 pre0 parts fuel hcl hfuel
    obtain ⟨c, t⟩ := p
    obtain ⟨f, rfl⟩ : ∃ f, fuel = f + 1 := ⟨fuel - 1, by simp at hfuel; omega⟩
    simp only [cleanPairs, Bool.and_eq_true] at hcl
    obtain ⟨⟨ht0, hc⟩, hrest⟩ := hcl
    have hcontent : pre0 ++ fenced t0 ((c, t) :: rest) =
        pre0 ++ (t0 ++ (fence ++ (c ++ fence ++ fenced t rest))) := by
      simp [fenced]
    have hcontent2 : pre0 ++ fenced t0 ((c, t) :: rest) =
        (pre0 ++ t0 ++ fence ++ c ++ fence) ++ fenced t rest := by
      simp [fenced]
    have hlen : (pre0 ++ t0 ++ fence ++ c ++ fence).length =
        pre0.length + t0.length + 3 + c.length + 3 := by
      simp [fence_eq]; omega
    unfold partsLoop
    rw [hcontent, exec_fenced pre0 t0 c _ ht0 hc]
    simp only []
    rw [slice_middle, ← hcontent, hcontent2, ← hlen,
      ih t (pre0 ++ t0 ++ fence ++ c ++ fence) _ f hrest (by simp at hfuel; omega)]
    simp only [lastText, loopParts, textPart]
    by_cases h0 : t0 = []
    · subst h0; simp
    · have : 0 < t0.length := List.length_pos.mpr h0
      simp [h0, this]

theorem fenced_eq_append_lastText (pairs : List (Str × Str)) :
    ∀ t0 : Str, ∃ front, fenced t0 pairs = front ++ lastText t0 pairs ∧
      pairs.length ≤ front.length := by
  induction pairs with
  | nil => intro t0; exact ⟨[], rfl, Nat.le_refl _⟩
  | cons p rest ih =>
    intro t0
    obtain ⟨c, t⟩ := p
    obtain ⟨front, h1, h2⟩ := ih t
    refine ⟨t0 ++ fence ++ c ++ fence ++ front, ?_, ?_⟩
    · simp [fenced, lastText, h1]
    · simp [fence_eq]; omega

theorem countType_textPart_code (t : Str) : countType PartType.code (textPart t) = 0 := by
  unfold textPart countType
  by_cases h : t = []
  · simp [h]
  · simp [h]

theorem countType_textPart_text (t : Str) : countType PartType.text (textPart t) ≤ 1 := by
  unfold textPart countType
  by_cases h : t = []
  · simp [h]
  · simp [h]

theorem countType_append (ty : PartType) (ps qs : List Part) :
    countType ty (ps ++ qs) = countType ty ps + countType ty qs := by
  simp [countType, List.countP_append]

theorem countType_loopParts (pairs : List (Str × Str)) :
    ∀ t0 : Str, countType PartType.code (loopParts t0 pairs) = pairs.length ∧
      countType PartType.text (loopParts t0 pairs) ≤ pairs.length := by
  induction pairs with
  | nil => intro t0; exact ⟨rfl, Nat.le_refl _⟩
  | cons p rest ih =>
    intro t0
    obtain ⟨c, t⟩ := p
    obtain ⟨h1, h2⟩ := ih t
    have h3 := countType_textPart_code t0
    have h4 := countType_textPart_text t0
    have h5 : countType PartType.code [⟨PartType.code, c⟩] = 1 := by simp [countType]
    have h6 : countType PartType.text [⟨PartType.code, c⟩] = 0 := by simp [countType]
    simp only [loopParts, countType_append, List.length_cons]
    constructor <;> omega

/-- C2, as the claim states it, fails: with `t0`, `c1` and `t1` two backticks
each, no piece holds a fence and there is one pair, but the twelve backticks
are read as two empty code segments. -/
theorem backticks_two_code_segments :
    fenceFree (utf16 "``") [((utf16 "``"), (utf16 "``"))] = true ∧
      [((utf16 "``"), (utf16 "``"))].length = 1 ∧
      (renderMessageContentParts (fenced (utf16 "``") [((utf16 "``"), (utf16 "``"))])).map
        (countType PartType.code) = some 2 := by
  decide

/-- The example of the claim: one code segment and no text segment. -/
theorem render_print_example :
    renderMessageContentParts (utf16 "```print(1)```") =
      some [⟨PartType.code, (utf16 "print(1)")⟩] := by
  decide

/-- C2, amended. For `t0 F c1 F t1 ... F cN F tN` where no piece holds a fence
and no piece in front of a fence ends with a backtick, the segment list is
exactly: each `ci` as a code segment, each non-empty `ti` as a text segment,
in order; so it has `N` code segments and at most `N + 1` text segments. -/
theorem fenced_parts (t0 : Str) (pairs : List (Str × Str))
    (h : cleanPairs t0 pairs = true) :
    renderMessageContentParts (fenced t0 pairs) = some (expectedParts t0 pairs) ∧
      countType PartType.code (expectedParts t0 pairs) = pairs.length ∧
      countType PartType.text (expectedParts t0 pairs) ≤ pairs.length + 1 := by
  obtain ⟨front, hfront, hlen⟩ := fenced_eq_append_lastText pairs t0
  have hloop := partsLoop_fenced pairs t0 [] [] ((fenced t0 pairs).length + 1) h
    (by rw [hfront]; simp; omega)
  simp only [List.nil_append, List.length_nil] at hloop
  refine ⟨?_, ?_, ?_⟩
  · unfold renderMessageContentParts
    rw [hloop]
    simp only [expectedParts, textPart]
    have hl : (fenced t0 pairs).length - (lastText t0 pairs).length = front.length := by
      rw [hfront]; simp
    rw [hl]
    have hdrop : (fenced t0 pairs).drop front.length = lastText t0 pairs := by
      rw [hfront, List.drop_left]
    rw [hdrop]
    by_cases hlast : lastText t0 pairs = []
    · have : ¬ front.length < (fenced t0 pairs).length := by
        rw [hfront, hlast]; simp
      simp [hlast, this]
    · have : front.length < (fenced t0 pairs).length := by
        rw [hfront]
        have := List.length_pos.mpr hlast
        simp; omega
      simp [hlast, this]
  · rw [expectedParts, countType_append, (countType_loopParts pairs t0).1,
      countType_textPart_code, Nat.add_zero]
  · rw [expectedParts, countType_append]
    have := (countType_loopParts pairs t0).2
    have := countType_textPart_text (lastText t0 pairs)
    omega

theorem fenced_parts_witness :
    cleanPairs (utf16 "see ") [((utf16 "print(1)"), (utf16 " and ")), ((utf16 "x"), [])] = true ∧
      (renderMessageContentParts
          (fenced (utf16 "see ") [((utf16 "print(1)"), (utf16 " and ")), ((utf16 "x"), [])]) =
        some (expectedParts (utf16 "see ")
          [((utf16 "print(1)"), (utf16 " and ")), ((utf16 "x"), [])]) ∧
      countType PartType.code (expectedParts (utf16 "see ")
          [((utf16 "print(1)"), (utf16 " and ")), ((utf16 "x"), [])]) =
        [((utf16 "print(1)"), (utf16 " and ")), ((utf16 "x"), ([] : Str))].length ∧
      countType PartType.text (expectedParts (utf16 "see ")
          [((utf16 "print(1)"), (utf16 " and ")), ((utf16 "x"), [])]) ≤
        [((utf16 "print(1)"), (utf16 " and ")), ((utf16 "x"), ([] : Str))].length + 1) :=
  ⟨by decide, fenced_parts _ _ (by decide)⟩

/-! ## Paragraphs and lines of a text segment -/

theorem splitGo_ne_nil (sep s : Str) (k : Nat) : splitGo sep s k ≠ [] := by
  induction s generalizing k with
  | nil => simp [splitGo]
  | cons c cs ih =>
    cases k with
    | succ k => simpa [splitGo] using ih k
    | zero =>
      unfold splitGo
      split
      · simp
      · cases h : splitGo sep cs 0 with
        | nil => exact absurd h (ih 0)
        | cons p ps => simp [consHead]

theorem length_consHead (c : CodeUnit) (l : List Str) (h : l ≠ []) :
    (consHead c l).length = l.length := by
  cases l with
  | nil => exact absurd rfl h
  | cons p ps => rfl

theorem head_normalizeGo (s : Str) : (normalizeGo false s).head? = s.head? := by
  cases s with
  | nil => rfl
  | cons c cs =>
    unfold normalizeGo
    split
    · rename_i h; simp [h.1]
    · rfl

theorem splitGo_LFLF (X : Str) :
    splitGo [LF, LF] (LF :: LF :: X) 0 = [] :: splitGo [LF, LF] X 0 := by
  simp [splitGo, List.isPrefixOf]

theorem splitGo_LFLF_other (c : CodeUnit) (X : Str) (h : ¬ (c = LF ∧ X.head? = some LF)) :
    splitGo [LF, LF] (c :: X) 0 = consHead c (splitGo [LF, LF] X 0) := by
  have : List.isPrefixOf [LF, LF] (c :: X) = false := by
    cases X with
    | nil => simp [List.isPrefixOf]
    | cons d X =>
      simp only [List.head?_cons, Option.some.injEq] at h
      simp only [List.isPrefixOf, Bool.and_true, Bool.and_eq_false_imp, beq_iff_eq]
      intro h1
      simp only [beq_eq_false_iff_ne, ne_eq]
      intro h2
      exact h ⟨h1.symm, h2.symm⟩
  simp [splitGo, this]

/-- The number of pieces of the normalized text, in both modes of the scan. -/
theorem length_split_normalizeGo (t : Str) :
    (∀ prev : Bool, (prev = true → t.head? ≠ some LF) →
        (splitGo [LF, LF] (normalizeGo false t) 0).length = blankRuns prev t + 1) ∧
      (splitGo [LF, LF] (normalizeGo true t) 0).length = blankRuns true t + 1 := by
  induction t with
  | nil => exact ⟨fun _ _ => rfl, rfl⟩
  | cons c cs ih =>
    obtain ⟨ihF, ihT⟩ := ih
    constructor
    · intro prev hprev
      by_cases hrun : c = LF ∧ cs.head? = some LF
      · have hp : prev = false := by
          cases prev with
          | false => rfl
          | true => exact absurd (by simp [hrun.1]) (hprev rfl)
        subst hp
        have hn : normalizeGo false (c :: cs) = LF :: LF :: normalizeGo true cs := by
          simp [normalizeGo, hrun]
        rw [hn, splitGo_LFLF, List.length_cons, ihT]
        simp [blankRuns, hrun]
        omega
      · have hn : normalizeGo false (c :: cs) = c :: normalizeGo false cs := by
          simp only [normalizeGo, hrun, if_false]
        have hsplit := splitGo_LFLF_other c (normalizeGo false cs)
          (by rw [head_normalizeGo]; exact hrun)
        rw [hn, hsplit, length_consHead _ _ (splitGo_ne_nil _ _ _)]
        rw [ihF (c == LF) (by
          intro hc
          simp only [beq_iff_eq] at hc
          intro hh
          exact hrun ⟨hc, hh⟩)]
        have hz : (if (!prev && c == LF && cs.head? == some LF) = true then 1 else 0) = 0 := by
          rw [if_neg]
          intro hh
          simp only [Bool.and_eq_true, beq_iff_eq] at hh
          exact hrun ⟨hh.1.2, hh.2⟩
        simp only [blankRuns, hz, Nat.zero_add]
    · by_cases hc : c = LF
      · have hn : normalizeGo true (c :: cs) = normalizeGo true cs := by
          simp [normalizeGo, hc]
        rw [hn, ihT]
        simp [blankRuns, hc]
      · have hn : normalizeGo true (c :: cs) = c :: normalizeGo false cs := by
          simp [normalizeGo, hc]
        have hsplit := splitGo_LFLF_other c (normalizeGo false cs) (fun h => hc h.1)
        rw [hn, hsplit, length_consHead _ _ (splitGo_ne_nil _ _ _)]
        rw [ihF (c == LF) (by intro h; simp only [beq_iff_eq] at h; exact absurd h hc)]
        simp [blankRuns, hc]

theorem mem_consHead (c : CodeUnit) (l : List Str) (p : Str) (h : p ∈ consHead c l) :
    p ≠ [] ∨ p ∈ l.tail := by
  cases l with
  | nil => simp [consHead] at h; left; simp [h]
  | cons q qs =>
    simp only [consHead, List.mem_cons] at h
    rcases h with h | h
    · left; simp [h]
    · right; exact h

theorem tail_consHead (c : CodeUnit) (l : List Str) (h : l ≠ []) :
    (consHead c l).tail = l.tail := by
  cases l with
  | nil => exact absurd rfl h
  | cons q qs => rfl

/-- No piece of the normalized text is empty, except perhaps the first. -/
theorem pieces_ne_nil (t : Str) :
    (t.getLast? ≠ some LF →
        ∀ p ∈ (splitGo [LF, LF] (normalizeGo false t) 0).tail, p ≠ []) ∧
      (t ≠ [] → t.getLast? ≠ some LF →
        ∀ p ∈ splitGo [LF, LF] (normalizeGo true t) 0, p ≠ []) := by
  induction t with
  | nil =>
    refine ⟨?_, fun h => absurd rfl h⟩
    intro _ p hp
    simp [normalizeGo, splitGo] at hp
  | cons c cs ih =>
    obtain ⟨ihF, ihT⟩ := ih
    have hlast : (c :: cs).getLast? ≠ some LF → cs ≠ [] → cs.getLast? ≠ some LF := by
      intro h hne
      obtain ⟨d, ds, rfl⟩ := List.exists_cons_of_ne_nil hne
      simpa using h
    have hlast2 : (c :: cs).getLast? ≠ some LF → cs.getLast? ≠ some LF := by
      intro h
      by_cases hne : cs = []
      · subst hne; simp
      · exact hlast h hne
    constructor
    · intro hl p hp
      by_cases hrun : c = LF ∧ cs.head? = some LF
      · have hn : normalizeGo false (c :: cs) = LF :: LF :: normalizeGo true cs := by
          simp [normalizeGo, hrun]
        rw [hn, splitGo_LFLF] at hp
        have hne : cs ≠ [] := by
          intro h; rw [h] at hrun; simp at hrun
        exact ihT hne (hlast hl hne) p hp
      · have hn : normalizeGo false (c :: cs) = c :: normalizeGo false cs := by
          simp only [normalizeGo, hrun, if_false]
        have hsplit := splitGo_LFLF_other c (normalizeGo false cs)
          (by rw [head_normalizeGo]; exact hrun)
        rw [hn, hsplit, tail_consHead _ _ (splitGo_ne_nil _ _ _)] at hp
        exact ihF (hlast2 hl) p hp
    · intro _ hl p hp
      by_cases hc : c = LF
      · have hn : normalizeGo true (c :: cs) = normalizeGo true cs := by
          simp [normalizeGo, hc]
        rw [hn] at hp
        have hne : cs ≠ [] := by
          intro h; rw [h, hc] at hl; simp at hl
        exact ihT hne (hlast hl hne) p hp
      · have hn : normalizeGo true (c :: cs) = c :: normalizeGo false cs := by
          simp [normalizeGo, hc]
        have hsplit := splitGo_LFLF_other c (normalizeGo false cs) (fun h => hc h.1)
        rw [hn, hsplit] at hp
        rcases mem_consHead _ _ _ hp with h | h
        · exact h
        · exact ihF (hlast2 hl) p h

/-- Every paragraph of a text that neither begins nor ends with a line feed is
non-empty. -/
theorem paragraphs_ne_nil (c : CodeUnit) (cs : Str) (hc : c ≠ LF)
    (hl : (c :: cs).getLast? ≠ some LF) :
    ∀ p ∈ split (normalizeParagraphs (c :: cs)) [LF, LF], p ≠ [] := by
  intro p hp
  have hn : normalizeGo false (c :: cs) = c :: normalizeGo false cs := by
    simp [normalizeGo, hc]
  have hsplit := splitGo_LFLF_other c (normalizeGo false cs) (fun h => hc h.1)
  unfold split normalizeParagraphs at hp
  rw [hn, hsplit] at hp
  rcases mem_consHead _ _ _ hp with h | h
  · exact h
  · refine (pieces_ne_nil cs).1 ?_ p h
    cases cs with
    | nil => simp
    | cons d ds => simpa using hl

theorem splitGo_head_isPrefix (sep : Str) (s : Str) :
    ∀ k : Nat, ∃ q qs, splitGo sep s k = q :: qs ∧ q <+: s.drop k := by
  induction s with
  | nil => intro k; exact ⟨[], [], by simp [splitGo], by simp⟩
  | cons c cs ih =>
    intro k
    cases k with
    | succ k =>
      obtain ⟨q, qs, h1, h2⟩ := ih k
      exact ⟨q, qs, by simpa [splitGo] using h1, by simpa using h2⟩
    | zero =>
      unfold splitGo
      split
      · exact ⟨[], _, rfl, List.nil_prefix⟩
      · obtain ⟨q, qs, h1, h2⟩ := ih 0
        refine ⟨c :: q, qs, by rw [h1]; rfl, ?_⟩
        simpa using h2

/-- No piece of a split holds the separator. -/
theorem splitGo_no_sep (sep : Str) (hsep : sep ≠ []) (s : Str) :
    ∀ k : Nat, ∀ p ∈ splitGo sep s k, ¬ sep <:+: p := by
  induction s with
  | nil =>
    intro k p hp h
    simp [splitGo] at hp
    subst hp
    exact hsep (List.infix_nil.mp h)
  | cons c cs ih =>
    intro k
    cases k with
    | succ k => simpa [splitGo] using ih k
    | zero =>
      intro p hp
      unfold splitGo at hp
      split at hp
      · simp only [List.mem_cons] at hp
        rcases hp with h | h
        · subst h
          intro h2
          exact hsep (List.infix_nil.mp h2)
        · exact ih _ p h
      · rename_i hnp
        obtain ⟨q, qs, h1, h2⟩ := splitGo_head_isPrefix sep cs 0
        rw [h1] at hp
        simp only [consHead, List.mem_cons] at hp
        rcases hp with h | h
        · subst h
          intro h3
          rcases List.infix_cons_iff.mp h3 with h4 | h4
          · apply hnp
            rw [List.isPrefixOf_iff_prefix]
            exact h4.trans ((List.prefix_cons_inj c).mpr (by simpa using h2))
          · exact ih 0 q (by rw [h1]; exact List.mem_cons_self _ _) h4
        · exact ih 0 p (by rw [h1]; exact List.mem_cons_of_mem _ h)

/-- Splitting at line feeds gives one line more than there are line feeds. -/
theorem length_split_LF (p : Str) : (split p [LF]).length = p.count LF + 1 := by
  unfold split
  induction p with
  | nil => rfl
  | cons c cs ih =>
    by_cases hc : c = LF
    · subst hc
      simp [splitGo, List.isPrefixOf, ih]
    · have h1 : List.isPrefixOf [LF] (c :: cs) = false := by
        simp [List.isPrefixOf]; exact fun h => hc h.symm
      have h2 : List.count LF (c :: cs) = List.count LF cs := by
        rw [List.count_cons]; simp [hc]
      simp only [splitGo, h1, Bool.false_eq_true, if_false, h2]
      rw [length_consHead _ _ (splitGo_ne_nil _ _ _), ih]

/-- A non-empty trim begins and ends with a character that is not white space. -/
theorem trim_ends (t : Str) (h : trim t ≠ []) :
    ∃ c u, trim t = c :: u ∧ isWhiteSpace c = false ∧
      ∀ x, (c :: u).getLast? = some x → isWhiteSpace x = false := by
  have hpre : trim t <+: t.dropWhile isWhiteSpace := by
    unfold trim
    rw [← List.reverse_suffix, List.reverse_reverse]
    exact List.dropWhile_suffix _
  obtain ⟨c, u, hcu⟩ := List.exists_cons_of_ne_nil h
  refine ⟨c, u, hcu, ?_, ?_⟩
  · rw [hcu] at hpre
    obtain ⟨w, hw⟩ := hpre
    have h1 := List.head?_dropWhile_not isWhiteSpace t
    rw [← hw] at h1
    simpa using h1
  · intro x hx
    rw [← hcu] at hx
    unfold trim at hx
    rw [List.getLast?_reverse] at hx
    have h1 := List.head?_dropWhile_not isWhiteSpace
      (t.dropWhile isWhiteSpace).reverse
    rw [hx] at h1
    simpa using h1

theorem replaceCRLF_cons (c : CodeUnit) (u : Str) (hc : c ≠ CR) :
    replaceCRLF (c :: u) = c :: replaceCRLF u := by
  cases u with
  | nil => rfl
  | cons d rest => simp [replaceCRLF, hc]

theorem getLast?_replaceCRLF (n : Nat) :
    ∀ s : Str, s.length ≤ n → s.getLast? ≠ some LF →
      (replaceCRLF s).getLast? = s.getLast? := by
  induction n with
  | zero =>
    intro s hs _
    have : s = [] := List.length_eq_zero.mp (by omega)
    subst this; rfl
  | succ n ih =>
    intro s hs hl
    match s, hs, hl with
    | [], _, _ => rfl
    | [c], _, _ => rfl
    | c :: d :: rest, hs, hl =>
      simp only [List.length_cons] at hs
      by_cases hp : c = CR ∧ d = LF
      · have hne : rest ≠ [] := by
          intro hr; subst hr; simp [hp.2] at hl
        obtain ⟨e, es, rfl⟩ := List.exists_cons_of_ne_nil hne
        have hl2 : (e :: es).getLast? ≠ some LF := by simpa using hl
        have h1 := ih (e :: es) (by simp only [List.length_cons] at hs ⊢; omega) hl2
        have hne2 : replaceCRLF (e :: es) ≠ [] := by
          intro h0; rw [h0] at h1
          exact absurd (List.getLast?_eq_none_iff.mp h1.symm) (by simp)
        obtain ⟨f, fs, hf⟩ := List.exists_cons_of_ne_nil hne2
        simp only [replaceCRLF, hp, and_self, if_true]
        rw [hf, List.getLast?_cons_cons, ← hf, h1]
        simp
      · have hl2 : (d :: rest).getLast? ≠ some LF := by simpa using hl
        have h1 := ih (d :: rest) (by simp only [List.length_cons]; omega) hl2
        have hne2 : replaceCRLF (d :: rest) ≠ [] := by
          intro h0; rw [h0] at h1
          exact absurd (List.getLast?_eq_none_iff.mp h1.symm) (by simp)
        obtain ⟨f, fs, hf⟩ := List.exists_cons_of_ne_nil hne2
        simp only [replaceCRLF, hp, if_false]
        rw [hf, List.getLast?_cons_cons, ← hf, h1]
        simp

/-- C10. For a text segment `t` with a non-empty trim, and `t'` the trim with
each CR LF replaced by LF: the text segment is rendered as its paragraphs, each
split into lines; the number of paragraphs is one more than the number of
maximal runs of two or more line feeds in `t'`; no paragraph is empty or holds
two consecutive line feeds; and a paragraph is rendered as one line more than
it holds line feeds. -/
theorem paragraphs_spec (t : Str) (h : trim t ≠ []) :
    renderPart ⟨PartType.text, t⟩ =
        Node.paragraphs ((paragraphsOf t).map (fun p => split p [LF])) ∧
      (paragraphsOf t).length = blankRuns false (replaceCRLF (trim t)) + 1 ∧
      ∀ p ∈ paragraphsOf t,
        p ≠ [] ∧ ¬ [LF, LF] <:+: p ∧ (split p [LF]).length = p.count LF + 1 := by
  refine ⟨rfl, ?_, ?_⟩
  · exact (length_split_normalizeGo (replaceCRLF (trim t))).1 false (by simp)
  · intro p hp
    refine ⟨?_, ?_, length_split_LF p⟩
    · obtain ⟨c, u, hcu, hc, hlast⟩ := trim_ends t h
      have hcCR : c ≠ CR := by
        intro h0; rw [h0] at hc; revert hc; decide
      have hcLF : c ≠ LF := by
        intro h0; rw [h0] at hc; revert hc; decide
      have hl : (c :: u).getLast? ≠ some LF := by
        intro h0
        have := hlast LF h0
        revert this; decide
      have hl2 : (c :: replaceCRLF u).getLast? ≠ some LF := by
        rw [← replaceCRLF_cons c u hcCR, getLast?_replaceCRLF _ _ (Nat.le_refl _) hl]
        exact hl
      unfold paragraphsOf at hp
      rw [hcu, replaceCRLF_cons c u hcCR] at hp
      exact paragraphs_ne_nil c (replaceCRLF u) hcLF hl2 p hp
    · exact splitGo_no_sep [LF, LF] (by simp) _ 0 p hp

theorem paragraphs_spec_witness :
    renderPart ⟨PartType.text, (utf16 " a\r\nb\n\n\nc\n")⟩ =
        Node.paragraphs
          ((paragraphsOf (utf16 " a\r\nb\n\n\nc\n")).map (fun p => split p [LF])) ∧
      (paragraphsOf (utf16 " a\r\nb\n\n\nc\n")).length =
        blankRuns false (replaceCRLF (trim (utf16 " a\r\nb\n\n\nc\n"))) + 1 ∧
      ∀ p ∈ paragraphsOf (utf16 " a\r\nb\n\n\nc\n"),
        p ≠ [] ∧ ¬ [LF, LF] <:+: p ∧ (split p [LF]).length = p.count LF + 1 :=
  paragraphs_spec _ (by decide)

/-! ## The interval never fires on an empty store -/

theorem exists_not_typing_removeTyping (l : List Message)
    (h : ∃ m ∈ l, m.isTyping = false) : ∃ m ∈ removeTyping l, m.isTyping = false := by
  obtain ⟨m, hm, ht⟩ := h
  refine ⟨m, ?_, ht⟩
  rw [removeTyping_eq_eraseP]
  exact (List.mem_eraseP_of_neg (by simp [ht])).mpr hm

theorem exists_not_typing_setLastContent (shown : Str) (l : List Message)
    (h : ∃ m ∈ l, m.isTyping = false) :
    ∃ m ∈ setLastContent shown l, m.isTyping = false := by
  obtain ⟨m, hm, ht⟩ := h
  rcases List.eq_nil_or_concat l with h0 | ⟨l1, a, h0⟩
  · subst h0; simp at hm
  · subst h0
    rw [List.concat_eq_append] at hm ⊢
    rw [setLastContent_append_singleton]
    simp only [List.mem_append, List.mem_singleton] at hm ⊢
    rcases hm with h1 | h1
    · exact ⟨m, Or.inl h1, ht⟩
    · subst h1
      exact ⟨{ m with content := shown }, Or.inr rfl, ht⟩

theorem timers_need_message_step (s : State) (e : Event)
    (h : s.timers = [] ∨ ∃ m ∈ s.messages, m.isTyping = false) :
    (step s e).timers = [] ∨ ∃ m ∈ (step s e).messages, m.isTyping = false := by
  cases e with
  | input value => exact h
  | search value => exact h
  | send timestamp =>
    show (sendMessage s timestamp).timers = [] ∨
      ∃ m ∈ (sendMessage s timestamp).messages, m.isTyping = false
    unfold sendMessage
    by_cases hb : (trim s.inputValue).isEmpty = true
    · simpa [hb] using h
    · simp only [hb, Bool.false_eq_true, if_false]
      right
      exact ⟨⟨Role.user, trim s.inputValue, timestamp, false⟩, by simp, rfl⟩
  | response k data assistantTime =>
    show (onResponse s k data assistantTime).timers = [] ∨
      ∃ m ∈ (onResponse s k data assistantTime).messages, m.isTyping = false
    have hrem : s.timers = [] ∨ ∃ m ∈ removeTyping s.messages, m.isTyping = false :=
      h.imp id (exists_not_typing_removeTyping _)
    unfold onResponse
    cases s.requests.get? k with
    | none => exact h
    | some req =>
      cases data.assistantMessage with
      | none => exact hrem
      | some r =>
        cases r with
        | nil => exact hrem
        | cons c cs =>
          right
          exact ⟨⟨Role.assistant, [], assistantTime, false⟩, by simp, rfl⟩
  | failure k =>
    show (onFailure s k).timers = [] ∨ ∃ m ∈ (onFailure s k).messages, m.isTyping = false
    unfold onFailure
    cases s.requests.get? k with
    | none => exact h
    | some req => exact h.imp id (exists_not_typing_removeTyping _)
  | tick k =>
    show (tick s k).timers = [] ∨ ∃ m ∈ (tick s k).messages, m.isTyping = false
    unfold tick
    cases hk : s.timers.get? k with
    | none => exact h
    | some tm =>
      rcases h with h | h
      · rw [h] at hk; simp at hk
      · right
        exact exists_not_typing_setLastContent _ _ h

/-- In every state reached from the initial one, a running interval finds a
non-empty store: the assignment to the last message does not throw. -/
theorem tick_store_ne_nil (es : List Event) (k : Nat) (tm : Timer)
    (hk : (run State.init es).timers.get? k = some tm) :
    (run State.init es).messages ≠ [] := by
  have hinv : ∀ (es : List Event) (s : State),
      (s.timers = [] ∨ ∃ m ∈ s.messages, m.isTyping = false) →
      ((run s es).timers = [] ∨ ∃ m ∈ (run s es).messages, m.isTyping = false) := by
    intro es
    induction es with
    | nil => intro s h; exact h
    | cons e es ih => intro s h; exact ih (step s e) (timers_need_message_step s e h)
  rcases hinv es State.init (Or.inl rfl) with h | ⟨m, hm, _⟩
  · rw [h] at hk; simp at hk
  · exact List.ne_nil_of_mem hm

end Chat
